import Mathlib

/-!
Verification of the uuid-annotator repository: a shallow embedding of the
routeview prefix index, the ASN / geo / site annotators, the event handler
and the IP RPC service, with theorems settling the frozen claims.

Go values are embedded as follows: `net.IP` is a list of byte values
(`List Nat`, each < 256 in practice), with the empty list standing for the
nil IP; machine integers are `Nat`/`Int` with explicit range checks where
the code performs them; fallible functions return `Option`/`Except`.
-/

/-! ## Go net primitives (net.IP, masks, parsing)

These definitions follow the Go standard library functions the repository
calls (`net.ParseIP`, `net.ParseCIDR`, `net.IPNet.Contains`, `bytes.Compare`,
`net.IP.String`), at go.mod's Go version. -/

/-- `net.IP`: a byte string; `[]` models the nil IP. -/
abbrev GoIP := List Nat

/-- The 12-byte v4-in-v6 marker used by `net.IPv4` (0..0 ffff). -/
def v4InV6Head : List Nat := [0, 0, 0, 0, 0, 0, 0, 0, 0, 0, 255, 255]

/-- `net.IPv4(a,b,c,d)`: the 16-byte IPv4-mapped representation. -/
def ipv4 (a b c d : Nat) : GoIP := v4InV6Head ++ [a, b, c, d]

/-- `net.IP.To4`: 4-byte form if the IP is IPv4 or IPv4-mapped, else nil. -/
def to4 (ip : GoIP) : GoIP :=
  if ip.length = 4 then ip
  else if ip.length = 16 ∧ ip.take 12 = v4InV6Head then ip.drop 12
  else []

/-- `bytes.Compare`: lexicographic order on byte strings. -/
def bytesCmp : List Nat → List Nat → Ordering
  | [], [] => .eq
  | [], _ :: _ => .lt
  | _ :: _, [] => .gt
  | a :: as, b :: bs =>
    match compare a b with
    | .eq => bytesCmp as bs
    | o => o

/-- The byte mask with `n` leading one bits (`^byte(0xff >> n)` in Go). -/
def maskByte (n : Nat) : Nat := 255 - (255 >>> n)

/-- The byte string of `net.CIDRMask(ones, 8*l)` (`l` bytes long). -/
def cidrMaskBytes : Nat → Nat → List Nat
  | _, 0 => []
  | n, l + 1 =>
    if 8 ≤ n then 255 :: cidrMaskBytes (n - 8) l
    else maskByte n :: cidrMaskBytes 0 l

/-- `net.CIDRMask(ones, bits)`; `none` models the nil mask. -/
def CIDRMask (ones bits : Nat) : Option (List Nat) :=
  if (bits = 32 ∨ bits = 128) ∧ ones ≤ bits then some (cidrMaskBytes ones (bits / 8))
  else none

/-- First adjustment in `net.IP.Mask`: a 16-byte mask whose head is all
ones applied to a 4-byte IP is shortened to its last 4 bytes. -/
def ipMaskAdjMask (ip mask : List Nat) : List Nat :=
  if mask.length = 16 ∧ ip.length = 4 ∧ mask.take 12 = List.replicate 12 255
  then mask.drop 12 else mask

/-- Second adjustment in `net.IP.Mask`: an IPv4-mapped 16-byte IP under a
4-byte mask is shortened to its last 4 bytes. -/
def ipMaskAdjIP (ip mask' : List Nat) : List Nat :=
  if mask'.length = 4 ∧ ip.length = 16 ∧ ip.take 12 = v4InV6Head
  then ip.drop 12 else ip

/-- `net.IP.Mask`: byte-wise AND after the 4/16-byte adjustments. -/
def ipApplyMask (ip mask : List Nat) : List Nat :=
  if (ipMaskAdjIP ip (ipMaskAdjMask ip mask)).length = (ipMaskAdjMask ip mask).length
  then List.zipWith (· &&& ·) (ipMaskAdjIP ip (ipMaskAdjMask ip mask)) (ipMaskAdjMask ip mask)
  else []

/-! ### Textual parsing (`strconv`, `net.ParseIP`, `net.ParseCIDR`) -/

def isDigit (c : Char) : Bool := '0' ≤ c && c ≤ '9'

def digitVal (c : Char) : Nat := c.toNat - '0'.toNat

def isHexDigit (c : Char) : Bool :=
  ('0' ≤ c && c ≤ '9') || ('a' ≤ c && c ≤ 'f') || ('A' ≤ c && c ≤ 'F')

def hexVal (c : Char) : Nat :=
  if '0' ≤ c && c ≤ '9' then c.toNat - '0'.toNat
  else if 'a' ≤ c && c ≤ 'f' then c.toNat - 'a'.toNat + 10
  else c.toNat - 'A'.toNat + 10

def decVal (ds : List Char) : Nat := ds.foldl (fun n c => 10 * n + digitVal c) 0

def hexValOf (ds : List Char) : Nat := ds.foldl (fun n c => 16 * n + hexVal c) 0

/-- Go's `dtoi`: maximal decimal prefix with the `big` (0xFFFFFF) cutoff.
Returns (value, chars consumed); `none` models `ok = false`. -/
def dtoi (s : List Char) : Option (Nat × Nat) :=
  let ds := s.takeWhile isDigit
  if ds.isEmpty then none
  else if 16777215 ≤ decVal ds then none
  else some (decVal ds, ds.length)

/-- Go's `xtoi`: maximal hex prefix with the `big` cutoff. -/
def xtoi (s : List Char) : Option (Nat × Nat) :=
  let ds := s.takeWhile isHexDigit
  if ds.isEmpty then none
  else if 16777215 ≤ hexValOf ds then none
  else some (hexValOf ds, ds.length)

/-- The numeric groups of Go's `parseIPv4` (dots and `<= 255` checks). -/
def parseIPv4Groups : Nat → List Char → Bool → Option (List Nat)
  | 0, s, _ => if s.isEmpty then some [] else none
  | n + 1, s, first =>
    match (if first then some s else match s with | '.' :: r => some r | _ => none) with
    | none => none
    | some s2 =>
      match dtoi s2 with
      | none => none
      | some (v, c) =>
        if 255 < v then none
        else (parseIPv4Groups n (s2.drop c) false).map (v :: ·)

/-- Go's `parseIPv4`: returns the 16-byte mapped IP; `[]` models nil. -/
def parseIPv4 (s : List Char) : GoIP :=
  match parseIPv4Groups 4 s true with
  | some [a, b, c, d] => ipv4 a b c d
  | _ => []

/-- The post-loop ellipsis expansion of Go's `parseIPv6`. -/
def parseIPv6Post (acc : List Nat) (ell : Option Nat) : GoIP :=
  if acc.length < 16 then
    match ell with
    | none => []
    | some e => acc.take e ++ List.replicate (16 - acc.length) 0 ++ acc.drop e
  else
    match ell with
    | none => acc
    | some _ => []

/-- The main loop of Go's `parseIPv6`; fuel counts the at most 8 group
iterations (`i` advances by at least 2 towards 16 every iteration). -/
def parseIPv6Run : Nat → List Char → List Nat → Option Nat → GoIP
  | 0, s, acc, ell => if s.isEmpty then parseIPv6Post acc ell else []
  | fuel + 1, s, acc, ell =>
    match xtoi s with
    | none => []
    | some (n, c) =>
      if 65535 < n then []
      else if (s.drop c).head? = some '.' then
        if ell = none ∧ acc.length ≠ 12 then []
        else if 16 < acc.length + 4 then []
        else
          match parseIPv4 s with
          | [] => []
          | ip4 => parseIPv6Post (acc ++ ip4.drop 12) ell
      else
        let acc' := acc ++ [n >>> 8, n &&& 255]
        match s.drop c with
        | [] => parseIPv6Post acc' ell
        | ':' :: rest =>
          if rest.isEmpty then []
          else
            match rest with
            | ':' :: rest2 =>
              if ell ≠ none then []
              else if rest2.isEmpty then parseIPv6Post acc' (some acc'.length)
              else parseIPv6Run fuel rest2 acc' (some acc'.length)
            | _ => parseIPv6Run fuel rest acc' ell
        | _ => []

/-- Go's `parseIPv6`; `[]` models nil. -/
def parseIPv6 (s : List Char) : GoIP :=
  match s with
  | ':' :: ':' :: rest =>
    if rest.isEmpty then List.replicate 16 0
    else parseIPv6Run 8 rest [] (some 0)
  | _ => parseIPv6Run 8 s [] none

/-- `net.ParseIP`: dispatch on the first `.` or `:`. -/
def goParseIP (s : List Char) : GoIP :=
  match s.find? (fun c => c = '.' || c = ':') with
  | some '.' => parseIPv4 s
  | some ':' => parseIPv6 s
  | _ => []

/-- Split a char list at the first occurrence of `sep`. -/
def splitAtFirst (sep : Char) : List Char → Option (List Char × List Char)
  | [] => none
  | c :: rest =>
    if c = sep then some ([], rest)
    else (splitAtFirst sep rest).map (fun p => (c :: p.1, p.2))

/-- `net.ParseCIDR`: returns (masked network bytes, mask bytes); `none`
models the error return. -/
def goParseCIDR (s : List Char) : Option (List Nat × List Nat) :=
  match splitAtFirst '/' s with
  | none => none
  | some (addr, maskStr) =>
    let p4 := parseIPv4 addr
    let ip := if p4.isEmpty then parseIPv6 addr else p4
    let iplen := if p4.isEmpty then 16 else 4
    match dtoi maskStr with
    | none => none
    | some (n, c) =>
      if ip.isEmpty ∨ c ≠ maskStr.length ∨ 8 * iplen < n then none
      else (CIDRMask n (8 * iplen)).map (fun m => (ipApplyMask ip m, m))

/-! ## The routeview package (src/unnamed/part_017)

`IPNet` entries carry the network bytes, the mask and the raw systems
string.  Interning of the systems string (`sm`) is a memory optimisation
with no semantic content and is not modelled. -/

/-- `routeview.IPNet`: a parsed RouteView row. -/
structure RVNet where
  ip : List Nat
  mask : List Nat
  systems : String
  deriving DecidableEq, Repr

/-- `routeview.Index`: prefix-length groups, longest first. -/
abbrev GoIndex := List (List RVNet)

/-- Go's `networkNumberAndMask`; `none` models the (nil, nil) return. -/
def networkNumberAndMask (e : RVNet) : Option (List Nat × List Nat) :=
  let nn := if (to4 e.ip).isEmpty then e.ip else to4 e.ip
  if (to4 e.ip).isEmpty ∧ nn.length ≠ 16 then none
  else if e.mask.length = 4 then
    if nn.length ≠ 4 then none else some (nn, e.mask)
  else if e.mask.length = 16 then
    if nn.length = 4 then some (nn, e.mask.drop 12) else some (nn, e.mask)
  else none

/-- `net.IPNet.Contains` on an entry of the index. -/
def rvContains (e : RVNet) (x0 : GoIP) : Bool :=
  let p := (networkNumberAndMask e).getD ([], [])
  let x := if (to4 x0).isEmpty then x0 else to4 x0
  x.length = p.1.length ∧
    List.zipWith (· &&& ·) p.1 p.2 = List.zipWith (· &&& ·) x p.2

/-- Go's `strings.Split` with a one-character separator. -/
def goSplit (sep : Char) : List Char → List (List Char)
  | [] => [[]]
  | c :: rest =>
    if c = sep then [] :: goSplit sep rest
    else
      match goSplit sep rest with
      | g :: gs => (c :: g) :: gs
      | [] => [[c]]

/-- `strconv.ParseUint(s, 10, 32)`; `none` models an error. -/
def goParseUint32 (s : List Char) : Option Nat :=
  if s.isEmpty then none
  else if s.all isDigit then
    let v := decVal s
    if v < 4294967296 then some v else none
  else none

/-- `strconv.ParseInt(s, 10, 32)`; `none` models an error. -/
def goParseInt32 (s : List Char) : Option Int :=
  let core : List Char → Option Nat := fun ds =>
    if ds.isEmpty then none
    else if ds.all isDigit then some (decVal ds) else none
  match s with
  | '+' :: r => (core r).bind (fun v => if v ≤ 2147483647 then some (v : Int) else none)
  | '-' :: r => (core r).bind (fun v => if v ≤ 2147483648 then some (-(v : Int)) else none)
  | r => (core r).bind (fun v => if v ≤ 2147483647 then some (v : Int) else none)

/-- `annotator.System`. -/
structure GoSystem where
  asns : List Nat
  deriving DecidableEq, Repr

/-- `routeview.ParseSystems`: split on `_`, then on `,`, skipping
unparseable ASN tokens. -/
def ParseSystems (s : String) : List GoSystem :=
  (goSplit '_' s.data).map (fun g => ⟨(goSplit ',' g).filterMap goParseUint32⟩)

/-- `encoding/csv` record extraction with `Comma = '\t'`, for inputs free
of the quote character: lines (empty lines skipped, trailing `\r`
stripped) split on tabs. -/
def csvRecords (blob : String) : List (List String) :=
  (((goSplit '\n' blob.data).map
      (fun l => if l.getLast? = some '\x0d' then l.dropLast else l)).filter
      (fun l => ¬l.isEmpty)).map
    (fun l => (goSplit '\x09' l).map (fun f => (⟨f⟩ : String)))

/-- One iteration of `ParseRouteView`'s row loop: skip records with fewer
than three fields, a netblock size `strconv.ParseInt` rejects, or a CIDR
`net.ParseCIDR` rejects; otherwise yield (netblock size, entry). -/
def parseRow (rec : List String) : Option (Int × RVNet) :=
  match rec with
  | p :: l :: sys :: _ =>
    match goParseInt32 l.data with
    | none => none
    | some nb =>
      match goParseCIDR (p.data ++ '/' :: l.data) with
      | none => none
      | some (ip, m) => some (nb, ⟨ip, m, sys⟩)
  | _ => none

/-- The order `NetIndex.Less` sorts by (non-strict form). -/
def rvLE (a b : RVNet) : Prop := bytesCmp a.ip b.ip ≠ .gt

instance : DecidableRel rvLE := fun a b => by unfold rvLE; infer_instance

/-- `routeview.ParseRouteView`: group parsed rows by netblock size, sort
each group by network bytes, order the groups by descending netblock
size.  `sort.Sort`'s postcondition (a sorted permutation) is realised by
insertion sort. -/
def ParseRouteView (blob : String) : GoIndex :=
  let rows := (csvRecords blob).filterMap parseRow
  let ks := ((rows.map Prod.fst).dedup).insertionSort (· ≥ ·)
  ks.map (fun k => ((rows.filter (fun r => r.1 = k)).map Prod.snd).insertionSort rvLE)

/-- Go's `sort.Search` binary-search loop on the interval [i, j).  The
interval shrinks strictly every iteration, so fuel `j - i` (here: the
initial `n`) bounds the iteration count; the fuel-exhausted case is
unreachable. -/
def sortSearchAux (f : Nat → Bool) : Nat → Nat → Nat → Nat
  | 0, i, _ => i
  | fuel + 1, i, j =>
    if i < j then
      if f ((i + j) / 2) then sortSearchAux f fuel i ((i + j) / 2)
      else sortSearchAux f fuel (((i + j) / 2) + 1) j
    else i

/-- `sort.Search(n, f)`. -/
def goSortSearch (n : Nat) (f : Nat → Bool) : Nat := sortSearchAux f n 0 n

/-- The predicate `Index.Search` hands to `sort.Search` for one group. -/
def searchF (ns : List RVNet) (ip : GoIP) (i : Nat) : Bool :=
  match ns.get? i with
  | some e => rvContains e ip || bytesCmp e.ip ip ≠ .lt
  | none => false

/-- The group loop of `Index.Search`. -/
def searchGroups (ip : GoIP) : GoIndex → Option RVNet
  | [] => none
  | ns :: rest =>
    match ns.get? (goSortSearch ns.length (searchF ns ip)) with
    | some e => if rvContains e ip then some e else searchGroups ip rest
    | none => searchGroups ip rest

/-- `Index.Search`: canonicalize the IP, then scan the groups from longest
netblock to shortest; `none` models `ErrNoASNFound`. -/
def Search (ix : GoIndex) (s : String) : Option RVNet :=
  let ip0 := goParseIP s.data
  let ip := if ¬(to4 ip0).isEmpty then to4 ip0 else ip0
  searchGroups ip ix

/-! ## IP string rendering (`net.IP.String`, `net.IPNet.String`) -/

/-- Decimal digits of `n` (Go's `uitoa`). -/
def uitoa (n : Nat) : List Char :=
  (Nat.toDigits 10 n)

/-- Lowercase hex digit. -/
def hexDigit (n : Nat) : Char :=
  if n < 10 then Char.ofNat ('0'.toNat + n) else Char.ofNat ('a'.toNat + (n - 10))

/-- Go's `appendHex` for one 16-bit group: lowercase, no leading zeros. -/
def hexGroup (n : Nat) : List Char :=
  if n = 0 then ['0']
  else
    let ds := [(n >>> 12) &&& 15, (n >>> 8) &&& 15, (n >>> 4) &&& 15, n &&& 15]
    (ds.dropWhile (· = 0)).map hexDigit

/-- Go's `hexString`: two lowercase hex digits per byte. -/
def hexString (bs : List Nat) : List Char :=
  bs.foldr (fun b acc => hexDigit ((b >>> 4) &&& 15) :: hexDigit (b &&& 15) :: acc) []

/-- The eight 16-bit groups of a 16-byte IP. -/
def v6Groups : List Nat → List Nat
  | a :: b :: rest => (a * 256 + b) :: v6Groups rest
  | _ => []

/-- Length of the zero-group run starting at position `i`. -/
def zeroRunAt (gs : List Nat) (i : Nat) : Nat := ((gs.drop i).takeWhile (· = 0)).length

/-- The leftmost longest run of at least two zero groups (start, length),
as selected by the `e0`/`e1` scan in Go's `IP.String`. -/
def bestZeroRun (gs : List Nat) : Option (Nat × Nat) :=
  let best := (List.range gs.length).foldl
    (fun acc i => if acc.2 < zeroRunAt gs i then (i, zeroRunAt gs i) else acc) (0, 0)
  if 2 ≤ best.2 then some best else none

/-- Join rendered groups with `:`. -/
def joinColon (gs : List Nat) : List Char :=
  match gs with
  | [] => []
  | g :: rest => rest.foldl (fun acc h => acc ++ ':' :: hexGroup h) (hexGroup g)

/-- `net.IP.String`. -/
def ipStringChars (ip : GoIP) : List Char :=
  if ip.isEmpty then '<' :: 'n' :: 'i' :: 'l' :: '>' :: []
  else if (to4 ip).length = 4 then
    match to4 ip with
    | [a, b, c, d] => uitoa a ++ '.' :: uitoa b ++ '.' :: uitoa c ++ '.' :: uitoa d
    | _ => []
  else if ip.length ≠ 16 then '?' :: hexString ip
  else
    let gs := v6Groups ip
    match bestZeroRun gs with
    | none => joinColon gs
    | some (s, l) => joinColon (gs.take s) ++ ':' :: ':' :: joinColon (gs.drop (s + l))

def ipString (ip : GoIP) : String := ⟨ipStringChars ip⟩

/-- Go's `simpleMaskLength` (count of leading one bits of a contiguous
mask); `none` models the -1 return. -/
def byteLeadingOnes : Nat → Nat → Nat × Nat
  | 0, v => (0, v)
  | f + 1, v =>
    if v &&& 128 ≠ 0 then
      let p := byteLeadingOnes f ((v <<< 1) &&& 255)
      (p.1 + 1, p.2)
    else (0, v)

def simpleMaskLength : List Nat → Option Nat
  | [] => some 0
  | v :: rest =>
    if v = 255 then (simpleMaskLength rest).map (8 + ·)
    else
      let p := byteLeadingOnes 8 v
      if p.2 ≠ 0 then none
      else if rest.any (· ≠ 0) then none
      else some p.1

/-- `net.IPNet.String` on an index entry. -/
def rvCIDRString (e : RVNet) : String :=
  if e.ip.isEmpty ∨ e.mask.isEmpty then "<nil>"
  else
    match simpleMaskLength e.mask with
    | none => ipString e.ip ++ "/" ++ (⟨hexString e.mask⟩ : String)
    | some l => ipString e.ip ++ "/" ++ (⟨uitoa l⟩ : String)

/-! ## The annotator package (src/unnamed/part_002) -/

/-- `inetdiag.SockID` (the fields the repository reads). -/
structure SockID where
  SrcIP : String
  SPort : Nat
  DstIP : String
  DPort : Nat
  deriving DecidableEq, Repr

/-- `annotator.Direction`. -/
inductive GoDirection
  | SrcIsServer
  | DstIsServer
  deriving DecidableEq, Repr

/-- `annotator.FindDirection`: first local IP whose rendered string equals
the source (checked first) or destination; `none` models the
unknown-direction error. -/
def FindDirection (ID : SockID) (localIPs : List GoIP) : Option GoDirection :=
  match localIPs with
  | [] => none
  | l :: rest =>
    if ID.SrcIP = ipString l then some .SrcIsServer
    else if ID.DstIP = ipString l then some .DstIsServer
    else FindDirection ID rest

/-- `annotator.Network`.  Field names follow the Go struct. -/
structure GoNetwork where
  CIDR : String := ""
  ASNumber : Nat := 0
  ASName : String := ""
  Missing : Bool := false
  Systems : List GoSystem := []
  deriving DecidableEq, Repr

/-- `Network.FirstASN`. -/
def FirstASN (n : GoNetwork) : Nat :=
  match n.Systems with
  | [] => 0
  | s0 :: _ =>
    match s0.asns with
    | [] => 0
    | a :: _ => a

/-- `annotator.Geolocation`.  `Latitude`/`Longitude` are float64 in Go; the
code only copies them, never computes with them, so they are carried as
opaque `Int` values here. -/
structure Geolocation where
  ContinentCode : String := ""
  CountryCode : String := ""
  CountryCode3 : String := ""
  CountryName : String := ""
  Region : String := ""
  Subdivision1ISOCode : String := ""
  Subdivision1Name : String := ""
  Subdivision2ISOCode : String := ""
  Subdivision2Name : String := ""
  MetroCode : Int := 0
  City : String := ""
  AreaCode : Int := 0
  PostalCode : String := ""
  Latitude : Int := 0
  Longitude : Int := 0
  AccuracyRadiusKm : Int := 0
  Missing : Bool := false
  deriving DecidableEq, Repr

/-- `annotator.ClientAnnotations`. -/
structure ClientAnnotations where
  Geo : Option Geolocation := none
  Network : Option GoNetwork := none
  deriving DecidableEq, Repr

/-- `annotator.ServerAnnotations`. -/
structure ServerAnnotations where
  Site : String := ""
  Machine : String := ""
  Geo : Option Geolocation := none
  Network : Option GoNetwork := none
  deriving DecidableEq, Repr

/-- `time.Time` for the purposes of this program: an absolute instant
(Unix seconds) plus the zone offset of its location, in seconds. -/
structure GoTime where
  unix : Int
  offset : Int
  deriving DecidableEq, Repr

/-- `annotator.Annotations`. -/
structure GoAnnotations where
  UUID : String := ""
  Timestamp : GoTime := ⟨0, 0⟩
  Server : ServerAnnotations := {}
  Client : ClientAnnotations := {}
  deriving DecidableEq, Repr

/-! ## The asnannotator package (src/asnannotator/asn.go) -/

/-- `ipinfo.ASNames` as an association list (Go map lookup of an absent
key yields the zero value ""). -/
abbrev ASNames := List (Nat × String)

def lookupName (m : ASNames) (k : Nat) : String :=
  match m.find? (fun p => p.1 = k) with
  | some p => p.2
  | none => ""

/-- `asnAnnotator.annotateIPHoldingLock`: try the IPv4 index, then the
IPv6 index; on a double miss return a fresh Network with only Missing
set.  `asnames` is `Option` because the Go field may be nil. -/
def annotateIPHoldingLock (asn4 asn6 : GoIndex) (asnames : Option ASNames) (src : String) :
    GoNetwork :=
  match Search asn4 src with
  | some ipnet =>
    let systems := ParseSystems ipnet.systems
    let asNumber := FirstASN { Systems := systems }
    { Systems := systems, ASNumber := asNumber, CIDR := rvCIDRString ipnet,
      ASName := match asnames with | some m => lookupName m asNumber | none => "" }
  | none =>
    match Search asn6 src with
    | some ipnet =>
      let systems := ParseSystems ipnet.systems
      let asNumber := FirstASN { Systems := systems }
      { Systems := systems, ASNumber := asNumber, CIDR := rvCIDRString ipnet,
        ASName := match asnames with | some m => lookupName m asNumber | none => "" }
    | none => { Missing := true }

/-- The mutable fields of `asnAnnotator` guarded by its lock. -/
structure AsnState where
  localIPs : List GoIP := []
  asn4 : GoIndex := []
  asn6 : GoIndex := []
  asnames : Option ASNames := none
  deriving DecidableEq, Repr

/-- `asnAnnotator.AnnotateIP`. -/
def asnAnnotateIP (st : AsnState) (src : String) : GoNetwork :=
  annotateIPHoldingLock st.asn4 st.asn6 st.asnames src

/-- `asnAnnotator.Annotate`; the `Option String` is the returned error. -/
def asnAnnotateID (st : AsnState) (ID : SockID) (ann : GoAnnotations) :
    GoAnnotations × Option String :=
  match FindDirection ID st.localIPs with
  | none => (ann, some "unknown direction")
  | some .DstIsServer =>
    ({ ann with Client := { ann.Client with Network := some (asnAnnotateIP st ID.SrcIP) } }, none)
  | some .SrcIsServer =>
    ({ ann with Client := { ann.Client with Network := some (asnAnnotateIP st ID.DstIP) } }, none)

/-- The outcome of a `content.Provider.Get` plus the decode step applied
to fresh bytes: `noChange` is `content.ErrNoChange`, `failed` any other
Get error, and `fresh x` a successful fetch whose decode
(`tarreader.FromGZ` / `tarreader.FromTarGZ` + `geoip2.FromBytes` /
`ipinfo.Parse`) yields `x` when `x = some _` and an error when `none`. -/
inductive GetRes (α : Type)
  | noChange
  | failed
  | fresh (payload : Option α)

/-- `asnannotator.load`: keep the old index on `ErrNoChange`, fail on Get
or decompression errors, else `ParseRouteView` the decompressed bytes. -/
def asnLoad (cur : GoIndex) (g : GetRes String) : Option GoIndex :=
  match g with
  | .noChange => some cur
  | .failed => none
  | .fresh none => none
  | .fresh (some tsv) => some (ParseRouteView tsv)

/-- `asnannotator.loadNames`. -/
def namesLoad (cur : Option ASNames) (g : GetRes ASNames) : Option (Option ASNames) :=
  match g with
  | .noChange => some cur
  | .failed => none
  | .fresh none => none
  | .fresh (some m) => some (some m)

/-- `asnAnnotator.Reload`: any load error returns early keeping the whole
state; otherwise all three snapshots are swapped under the write lock. -/
def asnReload (st : AsnState) (g4 g6 : GetRes String) (gn : GetRes ASNames) : AsnState :=
  match asnLoad st.asn4 g4 with
  | none => st
  | some new4 =>
    match asnLoad st.asn6 g6 with
    | none => st
    | some new6 =>
      match namesLoad st.asnames gn with
      | none => st
      | some newn => { st with asn4 := new4, asn6 := new6, asnames := newn }

/-! ## The geoannotator package (src/geoannotator/ipannotator.go) -/

/-- The fields of a `geoip2.City` record the code reads. -/
structure CityRecord where
  cityGeoNameID : Nat := 0
  countryGeoNameID : Nat := 0
  continentGeoNameID : Nat := 0
  continentCode : String := ""
  countryISOCode : String := ""
  countryNameEn : String := ""
  cityNameEn : String := ""
  postalCode : String := ""
  metroCode : Int := 0
  latitude : Int := 0
  longitude : Int := 0
  accuracyRadius : Int := 0
  subdivisions : List (String × String) := []

/-- A loaded `geoip2.Reader`: `City` may return an error. -/
structure GeoDB where
  city : GoIP → Except String CityRecord

/-- `geoannotator.isEmpty`. -/
def cityIsEmpty (r : CityRecord) : Bool :=
  r.cityGeoNameID = 0 ∧ r.countryGeoNameID = 0 ∧ r.continentGeoNameID = 0

/-- `geoannotator.annotateIPHoldingLock`: nil IP and reader errors are
errors; an empty record yields Missing=true; otherwise the shaped
record, with up to two subdivisions. -/
def geoAnnotateIPHoldingLock (db : GeoDB) (ip : GoIP) : Except String Geolocation :=
  if ip.isEmpty then .error "can't annotate nil IP"
  else
    match db.city ip with
    | .error e => .error e
    | .ok record =>
      if cityIsEmpty record then .ok { Missing := true }
      else
        let base : Geolocation :=
          { ContinentCode := record.continentCode
            CountryCode := record.countryISOCode
            CountryName := record.countryNameEn
            MetroCode := record.metroCode
            City := record.cityNameEn
            PostalCode := record.postalCode
            Latitude := record.latitude
            Longitude := record.longitude
            AccuracyRadiusKm := record.accuracyRadius }
        match record.subdivisions with
        | [] => .ok base
        | s1 :: rest =>
          let b1 := { base with Subdivision1ISOCode := s1.1, Subdivision1Name := s1.2 }
          match rest with
          | [] => .ok b1
          | s2 :: _ => .ok { b1 with Subdivision2ISOCode := s2.1, Subdivision2Name := s2.2 }

/-- The mutable fields of `geoannotator`. -/
structure GeoState where
  localIPs : List GoIP := []
  maxmind : GeoDB := ⟨fun _ => .error "no db"⟩

/-- `geoannotator.load`. -/
def geoLoad (st : GeoState) (g : GetRes GeoDB) : Option GeoDB :=
  match g with
  | .noChange => some st.maxmind
  | .failed => none
  | .fresh none => none
  | .fresh (some db) => some db

/-- `geoannotator.Reload`. -/
def geoReload (st : GeoState) (g : GetRes GeoDB) : GeoState :=
  match geoLoad st g with
  | none => st
  | some db => { st with maxmind := db }

/-- `geoannotator.AnnotateIP` (read lock + holding-lock lookup). -/
def geoAnnotateIP (st : GeoState) (ip : GoIP) : Except String Geolocation :=
  geoAnnotateIPHoldingLock st.maxmind ip

/-- `geoannotator.annotateHoldingLock` (string entry point). -/
def geoAnnotateSrc (st : GeoState) (src : String) : Except String Geolocation :=
  let ip := goParseIP src.data
  if ip.isEmpty then .error "failed to parse IP"
  else geoAnnotateIPHoldingLock st.maxmind ip

/-- `geoannotator.Annotate`. -/
def geoAnnotateID (st : GeoState) (ID : SockID) (ann : GoAnnotations) :
    GoAnnotations × Option String :=
  match FindDirection ID st.localIPs with
  | none => (ann, some "unknown direction")
  | some .DstIsServer =>
    match geoAnnotateSrc st ID.SrcIP with
    | .ok g => ({ ann with Client := { ann.Client with Geo := some g } }, none)
    | .error _ => (ann, some "ErrNoAnnotation")
  | some .SrcIsServer =>
    match geoAnnotateSrc st ID.DstIP with
    | .ok g => ({ ann with Client := { ann.Client with Geo := some g } }, none)
    | .error _ => (ann, some "ErrNoAnnotation")

/-! ## The siteannotator package (src/siteannotator/server.go) -/

/-- `siteinfoAnnotation` (named `siteinfoAnnotation` in Go: the server
annotations, the configured CIDR strings, and the site type). -/
structure SiteEntry where
  serverAnn : ServerAnnotations
  networkIPv4 : String
  networkIPv6 : String
  siteType : String
  deriving Repr

/-- A `net.IPNet` value: (IP bytes, mask bytes); `([], [])` is the zero
value. -/
abbrev GoIPNet := List Nat × List Nat

/-- `siteannotator.parseCIDR`: empty strings yield the zero IPNet, and a
parse error on a non-empty string is an error. -/
def siteParseCIDR (v4 v6 : String) : Option (GoIPNet × GoIPNet) :=
  let r4 := goParseCIDR v4.data
  if r4 = none ∧ v4 ≠ "" then none
  else
    let v4ret : GoIPNet := if v4 ≠ "" then r4.getD ([], []) else ([], [])
    let r6 := goParseCIDR v6.data
    if r6 = none ∧ v6 ≠ "" then none
    else some (v4ret, if v6 ≠ "" then r6.getD ([], []) else ([], []))

/-- `siteAnnotator.load`: the provider + `json.Unmarshal` outcome is
modelled as `Option` holding the decoded hostname map; on a hit, the site
entry's CIDRs are parsed and, for a virtual site, the v4 and v6 network
addresses are appended to the local-IP list.  Returns (server
annotations, local IPs, v4, v6); `none` models the error returns. -/
def siteLoad (siteinfo : Option (List (String × SiteEntry))) (hostname : String)
    (localIPs : List GoIP) :
    Option (ServerAnnotations × List GoIP × GoIPNet × GoIPNet) :=
  match siteinfo with
  | none => none
  | some m =>
    match m.find? (fun p => p.1 = hostname) with
    | none => none
    | some (_, v) =>
      match siteParseCIDR v.networkIPv4 v.networkIPv6 with
      | none => none
      | some (n4, n6) =>
        let localIPs' := if v.siteType = "virtual" then localIPs ++ [n4.1, n6.1] else localIPs
        some (v.serverAnn, localIPs', n4, n6)

/-! ## The handler package (src/handler/handler.go) -/

/-- A queued `handler.job`. -/
structure HJob where
  timestamp : GoTime
  uuid : String
  id : SockID
  deriving DecidableEq, Repr

/-- The handler's channel and the `missed-jobs{pipefull}` counter. -/
structure HState where
  cap : Nat
  jobs : List HJob := []
  missedPipefull : Nat := 0
  deriving DecidableEq, Repr

/-- `handler.Open`: non-blocking send on the buffered channel (the
`select`/`default`): enqueue when there is space, else count the drop. -/
def hOpen (st : HState) (timestamp : GoTime) (uuid : String) (ID : SockID) : HState :=
  if st.jobs.length < st.cap then
    { st with jobs := st.jobs ++ [⟨timestamp, uuid, ID⟩] }
  else
    { st with missedPipefull := st.missedPipefull + 1 }

/-- Civil date (year, month, day) of a day count relative to 1970-01-01
(proleptic Gregorian).  Models the date computation inside
`time.Time.Format`. -/
def civilFromDays (z0 : Int) : Int × Int × Int :=
  let z := z0 + 719468
  let era := (if 0 ≤ z then z else z - 146096) / 146097
  let doe := z - era * 146097
  let yoe := (doe - doe / 1460 + doe / 36524 - doe / 146096) / 365
  let y := yoe + era * 400
  let doy := doe - (365 * yoe + yoe / 4 - yoe / 100)
  let mp := (5 * doy + 2) / 153
  let d := doy - (153 * mp + 2) / 5 + 1
  let m := if mp < 10 then mp + 3 else mp - 9
  (if m ≤ 2 then y + 1 else y, m, d)

/-- Zero-padded decimal rendering of width `w` (non-negative input). -/
def padNum (w : Nat) (n : Int) : String :=
  let ds := uitoa n.toNat
  ⟨List.replicate (w - ds.length) '0' ++ ds⟩

/-- `t.Format("/2006/01/02/")`: the civil date of the instant in the
timestamp's own location (Go renders wall-clock time, i.e. the instant
shifted by the zone offset). -/
def formatDatePath (t : GoTime) : String :=
  let days := Int.fdiv (t.unix + t.offset) 86400
  let c := civilFromDays days
  "/" ++ padNum 4 c.1 ++ "/" ++ padNum 2 c.2.1 ++ "/" ++ padNum 2 c.2.2 ++ "/"

/-- The same layout rendered in UTC (offset zero). -/
def formatDatePathUTC (t : GoTime) : String := formatDatePath ⟨t.unix, 0⟩

/-- The path `job.WriteFile` writes to:
`datadir + timestamp.Format("/2006/01/02/") + uuid + ".json"`. -/
def writeFilePath (dir : String) (j : HJob) : String :=
  dir ++ formatDatePath j.timestamp ++ j.uuid ++ ".json"

/-- An annotator as the worker sees it: `Annotate(id, &annotations)`
mutates the record and may return an error. -/
abbrev AnnFn := SockID → GoAnnotations → GoAnnotations × Option String

/-- The per-job body of `handler.ProcessIncomingRequests`: build a fresh
record carrying the event's UUID and timestamp, run every annotator in
order (errors are counted but do not stop the loop), and return the
record that is then serialized and written. -/
def processJob (annotators : List AnnFn) (j : HJob) : GoAnnotations :=
  annotators.foldl (fun ann a => (a j.id ann).1)
    { UUID := j.uuid, Timestamp := j.timestamp }

/-! ## The ipservice package (src/ipservice/server.go) -/

/-- Insert-or-overwrite on the response map (Go map assignment). -/
def upsert (m : List (String × ClientAnnotations)) (k : String) (v : ClientAnnotations) :
    List (String × ClientAnnotations) :=
  if m.any (fun p => p.1 = k) then m.map (fun p => if p.1 = k then (k, v) else p)
  else m ++ [(k, v)]

/-- The RPC handler's response: HTTP status and the JSON object, as a
key-ordered association list. -/
structure RPCResponse where
  status : Nat
  body : List (String × ClientAnnotations)
  deriving Repr

/-- The body of `handler.ServeHTTP` on `GET /v1/annotate/ips`: skip
unparseable IPs, annotate the rest from the in-memory snapshots
(`AnnotateIP` on both annotators; a geo error leaves Geo nil), answer 400
when nothing parsed and 200 with the map otherwise. -/
def serveAnnotateIPs (asnSt : AsnState) (geoSt : GeoState) (ipstrings : List String) :
    RPCResponse :=
  let resp := ipstrings.foldl
    (fun resp ipstring =>
      let ip := goParseIP ipstring.data
      if ip.isEmpty then resp
      else
        let network := asnAnnotateIP asnSt ipstring
        let geo := match geoAnnotateIP geoSt ip with
          | .ok g => some g
          | .error _ => none
        upsert resp ipstring ⟨geo, some network⟩)
    []
  if resp.isEmpty then ⟨400, []⟩ else ⟨200, resp⟩

/-! ## Derived notions used by the statements -/

/-- The canonicalized query IP `Index.Search` works with. -/
def canonIP (s : String) : GoIP :=
  let ip0 := goParseIP s.data
  if ¬(to4 ip0).isEmpty then to4 ip0 else ip0

/-- The value of a byte string read base 256 (big endian). -/
def bytesVal (l : List Nat) : Nat := l.foldl (fun a b => 256 * a + b) 0

/-- All entries of a byte string are bytes. -/
def allBytes (l : List Nat) : Prop := ∀ b ∈ l, b < 256

/-- Single-address-family indices: every entry's network has byte length
`L`, and 16-byte networks are not IPv4-mapped.  This holds for indices
built from the (pure v4 or pure v6) RouteView files the program loads. -/
def pureFamily (L : Nat) (ix : GoIndex) : Prop :=
  ∀ g ∈ ix, ∀ e ∈ g, e.ip.length = L ∧ (L = 16 → to4 e.ip = [])

/-- An entry of the index contains the (canonicalized) query IP. -/
def someEntryContains (ix : GoIndex) (c : GoIP) : Prop :=
  ∃ g ∈ ix, ∃ e ∈ g, rvContains e c = true

/-- The successfully parsed rows of a RouteView blob (in file order). -/
def rvRows (blob : String) : List (Int × RVNet) :=
  (csvRecords blob).filterMap parseRow

/-- The distinct netblock sizes, largest first. -/
def rvKeys (blob : String) : List Int :=
  (((rvRows blob).map Prod.fst).dedup).insertionSort (· ≥ ·)

/-- One sorted prefix-length group of the index. -/
def groupOf (blob : String) (k : Int) : List RVNet :=
  (((rvRows blob).filter (fun r => r.1 = k)).map Prod.snd).insertionSort rvLE

/-- The `ClientAnnotations` value the RPC handler stores for a valid input
IP string (geo errors leave Geo nil; Network is always present). -/
def serveValue (asnSt : AsnState) (geoSt : GeoState) (s : String) : ClientAnnotations :=
  ⟨match geoAnnotateIP geoSt (goParseIP s.data) with
    | .ok g => some g
    | .error _ => none,
   some (asnAnnotateIP asnSt s)⟩

/-- One step of the `ServeHTTP` fold over the request's ip parameters. -/
def serveStep (asnSt : AsnState) (geoSt : GeoState)
    (resp : List (String × ClientAnnotations)) (ipstring : String) :
    List (String × ClientAnnotations) :=
  if (goParseIP ipstring.data).isEmpty then resp
  else upsert resp ipstring (serveValue asnSt geoSt ipstring)

/-! # Theorems

Order and search infrastructure first, then the per-claim theorems. -/

/-! ## bytes.Compare as a total order -/

theorem bytesCmp_self (a : List Nat) : bytesCmp a a = .eq := by
  induction a with
  | nil => rfl
  | cons x xs ih => simp [bytesCmp, Nat.compare_eq_eq.mpr rfl, ih]

theorem bytesCmp_eq_iff {a b : List Nat} : bytesCmp a b = .eq ↔ a = b := by
  constructor
  · intro h
    induction a generalizing b with
    | nil => cases b with
      | nil => rfl
      | cons y ys => simp [bytesCmp] at h
    | cons x xs ih =>
      cases b with
      | nil => simp [bytesCmp] at h
      | cons y ys =>
        simp only [bytesCmp] at h
        rcases ho : compare x y with _ | _ | _ <;> rw [ho] at h
        · exact absurd h (by simp)
        · rw [Nat.compare_eq_eq.mp ho, ih h]
        · exact absurd h (by simp)
  · rintro rfl; exact bytesCmp_self a

theorem bytesCmp_swap (a b : List Nat) : bytesCmp b a = (bytesCmp a b).swap := by
  induction a generalizing b with
  | nil => cases b <;> rfl
  | cons x xs ih =>
    cases b with
    | nil => rfl
    | cons y ys =>
      simp only [bytesCmp]
      rcases ho : compare x y with _ | _ | _
      · rw [Nat.compare_eq_gt.mpr (Nat.compare_eq_lt.mp ho)]; rfl
      · rw [Nat.compare_eq_eq.mpr (Nat.compare_eq_eq.mp ho).symm]; exact ih ys
      · rw [Nat.compare_eq_lt.mpr (Nat.compare_eq_gt.mp ho)]; rfl

theorem bytesCmp_le_trans {a b c : List Nat} (hab : bytesCmp a b ≠ .gt)
    (hbc : bytesCmp b c ≠ .gt) : bytesCmp a c ≠ .gt := by
  induction a generalizing b c with
  | nil => cases c with
    | nil => simp [bytesCmp]
    | cons z zs => simp [bytesCmp]
  | cons x xs ih =>
    cases b with
    | nil => simp [bytesCmp] at hab
    | cons y ys =>
      cases c with
      | nil => simp [bytesCmp] at hbc
      | cons z zs =>
        simp only [bytesCmp] at hab hbc ⊢
        rcases hxy : compare x y with _ | _ | _ <;> rw [hxy] at hab
        · have h1 : x < y := Nat.compare_eq_lt.mp hxy
          rcases hyz : compare y z with _ | _ | _ <;> rw [hyz] at hbc
          · have h2 : y < z := Nat.compare_eq_lt.mp hyz
            rw [Nat.compare_eq_lt.mpr (h1.trans h2)]; simp
          · rw [Nat.compare_eq_lt.mpr (Nat.compare_eq_eq.mp hyz ▸ h1)]; simp
          · exact absurd rfl hbc
        · rw [Nat.compare_eq_eq.mp hxy]
          rcases hyz : compare y z with _ | _ | _ <;> rw [hyz] at hbc
          · simp
          · exact ih hab hbc
          · exact absurd rfl hbc
        · exact absurd rfl hab

theorem bytesCmp_total (a b : List Nat) : bytesCmp a b ≠ .gt ∨ bytesCmp b a ≠ .gt := by
  rcases h : bytesCmp a b with _ | _ | _
  · left; simp
  · left; simp
  · right; rw [bytesCmp_swap a b, h]; simp [Ordering.swap]

theorem bytesCmp_antisymm {a b : List Nat} (hab : bytesCmp a b ≠ .gt)
    (hba : bytesCmp b a ≠ .gt) : a = b := by
  rcases h : bytesCmp a b with _ | _ | _
  · rw [bytesCmp_swap a b, h] at hba; simp [Ordering.swap] at hba
  · exact bytesCmp_eq_iff.mp h
  · exact absurd h hab

instance : IsTotal RVNet rvLE :=
  ⟨fun a b => bytesCmp_total a.ip b.ip⟩

instance : IsTrans RVNet rvLE :=
  ⟨fun _ _ _ => bytesCmp_le_trans⟩

/-! ## sort.Search -/

theorem sortSearchAux_spec (f : Nat → Bool) (n : Nat) :
    ∀ fuel i j, j - i ≤ fuel → i ≤ j → j ≤ n →
    (i = 0 ∨ f (i - 1) = false) → (j = n ∨ f j = true) →
    i ≤ sortSearchAux f fuel i j ∧ sortSearchAux f fuel i j ≤ j ∧
      (sortSearchAux f fuel i j = 0 ∨ f (sortSearchAux f fuel i j - 1) = false) ∧
      (sortSearchAux f fuel i j = n ∨ f (sortSearchAux f fuel i j) = true) := by
  intro fuel
  induction fuel with
  | zero =>
    intro i j hfuel hij hjn hi hj
    have : i = j := by omega
    subst this
    rw [sortSearchAux]
    exact ⟨le_rfl, le_rfl, hi, hj⟩
  | succ fuel ih =>
    intro i j hfuel hij hjn hi hj
    rw [sortSearchAux]
    by_cases hlt : i < j
    · rw [if_pos hlt]
      by_cases hf : f ((i + j) / 2) = true
      · rw [if_pos hf]
        obtain ⟨a1, a2, a3, a4⟩ :=
          ih i ((i + j) / 2) (by omega) (by omega) (by omega) hi (Or.inr hf)
        exact ⟨a1, by omega, a3, a4⟩
      · rw [if_neg hf]
        obtain ⟨a1, a2, a3, a4⟩ :=
          ih (((i + j) / 2) + 1) j (by omega) (by omega) hjn
            (Or.inr (by simpa using hf)) hj
        exact ⟨by omega, a2, a3, a4⟩
    · rw [if_neg hlt]
      have : i = j := by omega
      subst this
      exact ⟨le_rfl, le_rfl, hi, hj⟩

/-- `sort.Search n f` with a monotone predicate returns the least index
where `f` is true (or `n` when there is none): everything below the
result is false, and the result, if below `n`, satisfies `f`. -/
theorem goSortSearch_spec (f : Nat → Bool) (n : Nat)
    (mono : ∀ i j, i ≤ j → j < n → f i = true → f j = true) :
    (∀ k < goSortSearch n f, f k = false) ∧
      (goSortSearch n f ≤ n) ∧ (goSortSearch n f < n → f (goSortSearch n f) = true) := by
  have hg : goSortSearch n f = sortSearchAux f n 0 n := rfl
  obtain ⟨h1, h2, h3, h4⟩ :=
    sortSearchAux_spec f n n 0 n (by omega) (Nat.zero_le n) le_rfl (Or.inl rfl) (Or.inl rfl)
  rw [hg]
  refine ⟨?_, h2, ?_⟩
  · intro k hk
    rcases h3 with h0 | hfr
    · omega
    · cases hfk : f k with
      | false => rfl
      | true =>
        have := mono k (sortSearchAux f n 0 n - 1) (by omega) (by omega) hfk
        rw [this] at hfr
        exact absurd hfr (by simp)
  · intro hrn
    rcases h4 with h | h
    · omega
    · exact h

/-! ## Byte arithmetic: masking as truncated division -/

theorem land_two_pow_mul_sub {x : Nat} (a b : Nat) (hx : x < 2 ^ (a + b)) :
    x &&& (2 ^ a * (2 ^ b - 1)) = x / 2 ^ a * 2 ^ a := by
  have hm : 2 ^ a * (2 ^ b - 1) = (2 ^ b - 1) <<< a := by
    rw [Nat.shiftLeft_eq, Nat.mul_comm]
  have hr : x / 2 ^ a * 2 ^ a = (x >>> a) <<< a := by
    rw [Nat.shiftLeft_eq, Nat.shiftRight_eq_div_pow]
  rw [hm, hr]
  apply Nat.eq_of_testBit_eq
  intro i
  rw [Nat.testBit_land, Nat.testBit_shiftLeft, Nat.testBit_shiftLeft, Nat.testBit_shiftRight,
    Nat.testBit_two_pow_sub_one]
  rcases Nat.lt_or_ge i a with hia | hia
  · simp [Nat.not_le_of_lt hia, decide_eq_false]
  · have h1 : (decide (i ≥ a)) = true := by simp [hia]
    rw [h1]
    simp only [Bool.true_and]
    have h2 : a + (i - a) = i := by omega
    rw [h2]
    rcases Nat.lt_or_ge i (a + b) with hib | hib
    · simp [show i - a < b by omega]
    · have : x.testBit i = false :=
        Nat.testBit_eq_false_of_lt (lt_of_lt_of_le hx (Nat.pow_le_pow_right (by norm_num) hib))
      simp [this, show ¬(i - a < b) by omega]

theorem maskByte_eq {n : Nat} (hn : n ≤ 8) : maskByte n = 2 ^ (8 - n) * (2 ^ n - 1) := by
  have : ∀ m < 9, (255 - (255 >>> m)) = 2 ^ (8 - m) * (2 ^ m - 1) := by decide
  exact this n (by omega)

theorem land_maskByte {x n : Nat} (hx : x < 256) (hn : n ≤ 8) :
    x &&& maskByte n = x / 2 ^ (8 - n) * 2 ^ (8 - n) := by
  rw [maskByte_eq hn]
  exact land_two_pow_mul_sub (8 - n) n (by rw [show 8 - n + n = 8 by omega]; exact hx)

theorem land_255 {x : Nat} (hx : x < 256) : x &&& 255 = x := by
  have h := land_two_pow_mul_sub (x := x) 0 8 (by simpa using hx)
  simpa using h

/-! ## Base-256 value of byte strings -/

theorem bytesVal_foldl (l : List Nat) :
    ∀ acc, l.foldl (fun a b => 256 * a + b) acc = acc * 256 ^ l.length + bytesVal l := by
  induction l with
  | nil => intro acc; simp [bytesVal]
  | cons x xs ih =>
    intro acc
    show xs.foldl _ (256 * acc + x) = _
    rw [ih (256 * acc + x)]
    have hx : bytesVal (x :: xs) = xs.foldl (fun a b => 256 * a + b) x := by
      simp [bytesVal, List.foldl]
    rw [hx, ih x]
    simp [List.length_cons, Nat.pow_succ]
    ring

theorem bytesVal_cons (x : Nat) (xs : List Nat) :
    bytesVal (x :: xs) = x * 256 ^ xs.length + bytesVal xs := by
  have : bytesVal (x :: xs) = xs.foldl (fun a b => 256 * a + b) x := by
    simp [bytesVal, List.foldl]
  rw [this, bytesVal_foldl]

theorem bytesVal_lt {l : List Nat} (h : allBytes l) : bytesVal l < 256 ^ l.length := by
  induction l with
  | nil => simp [bytesVal]
  | cons x xs ih =>
    rw [bytesVal_cons]
    have hx : x < 256 := h x (List.mem_cons_self x xs)
    have hxs : bytesVal xs < 256 ^ xs.length := ih (fun b hb => h b (List.mem_cons_of_mem x hb))
    calc x * 256 ^ xs.length + bytesVal xs
        < x * 256 ^ xs.length + 256 ^ xs.length := by omega
      _ = (x + 1) * 256 ^ xs.length := by ring
      _ ≤ 256 * 256 ^ xs.length := Nat.mul_le_mul_right _ (by omega)
      _ = 256 ^ (x :: xs).length := by rw [List.length_cons, Nat.pow_succ]; ring

theorem bytesCmp_eq_compare {a b : List Nat} (hl : a.length = b.length)
    (ha : allBytes a) (hb : allBytes b) :
    bytesCmp a b = compare (bytesVal a) (bytesVal b) := by
  induction a generalizing b with
  | nil =>
    cases b with
    | nil => simp [bytesCmp, bytesVal, Nat.compare_eq_eq.mpr rfl]
    | cons y ys => simp at hl
  | cons x xs ih =>
    cases b with
    | nil => simp at hl
    | cons y ys =>
      have hl' : xs.length = ys.length := by simpa using hl
      have hax : x < 256 := ha x (List.mem_cons_self x xs)
      have hay : y < 256 := hb y (List.mem_cons_self y ys)
      have haxs : allBytes xs := fun c hc => ha c (List.mem_cons_of_mem x hc)
      have hays : allBytes ys := fun c hc => hb c (List.mem_cons_of_mem y hc)
      have hvx : bytesVal xs < 256 ^ xs.length := bytesVal_lt haxs
      have hvy : bytesVal ys < 256 ^ ys.length := bytesVal_lt hays
      simp only [bytesCmp, bytesVal_cons]
      rcases hxy : compare x y with _ | _ | _
      · have h1 : x < y := Nat.compare_eq_lt.mp hxy
        symm
        rw [Nat.compare_eq_lt]
        calc x * 256 ^ xs.length + bytesVal xs
            < (x + 1) * 256 ^ xs.length := by ring_nf; omega
          _ ≤ y * 256 ^ xs.length := Nat.mul_le_mul_right _ (by omega)
          _ = y * 256 ^ ys.length := by rw [hl']
          _ ≤ y * 256 ^ ys.length + bytesVal ys := Nat.le_add_right _ _
      · have h1 : x = y := Nat.compare_eq_eq.mp hxy
        subst h1
        rw [ih hl' haxs hays]
        rcases hc : compare (bytesVal xs) (bytesVal ys) with _ | _ | _ <;> symm
        · rw [Nat.compare_eq_lt] at hc ⊢; rw [hl']; omega
        · rw [Nat.compare_eq_eq] at hc ⊢; rw [hl']; omega
        · rw [Nat.compare_eq_gt] at hc ⊢; rw [hl']; omega
      · have h1 : y < x := Nat.compare_eq_gt.mp hxy
        symm
        rw [Nat.compare_eq_gt]
        calc y * 256 ^ ys.length + bytesVal ys
            < (y + 1) * 256 ^ ys.length := by ring_nf; omega
          _ ≤ x * 256 ^ ys.length := Nat.mul_le_mul_right _ (by omega)
          _ = x * 256 ^ xs.length := by rw [hl']
          _ ≤ x * 256 ^ xs.length + bytesVal xs := Nat.le_add_right _ _

theorem cidrMaskBytes_length (n l : Nat) : (cidrMaskBytes n l).length = l := by
  induction l generalizing n with
  | zero => rfl
  | succ l ih =>
    rw [cidrMaskBytes]
    split <;> simp [ih]

theorem cidrMaskBytes_allBytes (n l : Nat) : allBytes (cidrMaskBytes n l) := by
  induction l generalizing n with
  | zero => intro b hb; simp [cidrMaskBytes] at hb
  | succ l ih =>
    intro b hb
    rw [cidrMaskBytes] at hb
    split at hb
    · rcases List.mem_cons.mp hb with h | h
      · omega
      · exact ih _ b h
    · rcases List.mem_cons.mp hb with h | h
      · have : maskByte n ≤ 255 := Nat.sub_le _ _
        omega
      · exact ih _ b h

/-- Masking with `CIDRMask k` truncates the base-256 value to a multiple
of `2 ^ (8 l - k)`. -/
theorem bytesVal_land_mask {a : List Nat} {k l : Nat} (hlen : a.length = l)
    (ha : allBytes a) (hk : k ≤ 8 * l) :
    bytesVal (List.zipWith (· &&& ·) a (cidrMaskBytes k l)) =
      bytesVal a / 2 ^ (8 * l - k) * 2 ^ (8 * l - k) := by
  induction l generalizing a k with
  | zero =>
    have : a = [] := List.length_eq_zero.mp hlen
    subst this
    simp [cidrMaskBytes, bytesVal]
  | succ l ih =>
    obtain ⟨x, xs, rfl⟩ : ∃ x xs, a = x :: xs := by
      cases a with
      | nil => simp at hlen
      | cons x xs => exact ⟨x, xs, rfl⟩
    have hxl : xs.length = l := by simpa using hlen
    have hx : x < 256 := ha x (List.mem_cons_self x xs)
    have haxs : allBytes xs := fun c hc => ha c (List.mem_cons_of_mem x hc)
    have hvxs : bytesVal xs < 256 ^ xs.length := bytesVal_lt haxs
    have h256 : (256 : Nat) ^ l = 2 ^ (8 * l) := by
      rw [show (256 : Nat) = 2 ^ 8 by norm_num, ← Nat.pow_mul]
    rw [cidrMaskBytes]
    split
    · -- leading 255 byte
      rename_i h8
      have hzl : (List.zipWith (· &&& ·) xs (cidrMaskBytes (k - 8) l)).length = l := by
        rw [List.length_zipWith, hxl, cidrMaskBytes_length]; omega
      rw [List.zipWith_cons_cons, bytesVal_cons, bytesVal_cons, hzl,
        ih (k := k - 8) hxl haxs (by omega), land_255 hx, hxl]
      set t := 8 * l - (k - 8) with ht
      have htt : 8 * Nat.succ l - k = t := by omega
      rw [htt]
      have htl : t ≤ 8 * l := by omega
      have hdvd : (2 : Nat) ^ t ∣ x * 256 ^ l := by
        apply Dvd.dvd.mul_left
        rw [h256]
        exact Nat.pow_dvd_pow 2 htl
      rw [Nat.add_div_of_dvd_right hdvd, Nat.add_mul, Nat.div_mul_cancel hdvd]
    · -- partial byte, rest of the mask zero
      rename_i h8
      have hk8 : k ≤ 8 := by omega
      have hzl : (List.zipWith (· &&& ·) xs (cidrMaskBytes 0 l)).length = l := by
        rw [List.length_zipWith, hxl, cidrMaskBytes_length]; omega
      rw [List.zipWith_cons_cons, bytesVal_cons, bytesVal_cons, hzl,
        ih (k := 0) hxl haxs (by omega), land_maskByte hx hk8, hxl]
      have hz : bytesVal xs / 2 ^ (8 * l - 0) * 2 ^ (8 * l - 0) = 0 := by
        have : bytesVal xs / 2 ^ (8 * l) = 0 := by
          apply Nat.div_eq_of_lt
          rw [← h256, ← hxl]
          exact hvxs
        simp [this]
      rw [hz, Nat.add_zero]
      set t := 8 * Nat.succ l - k with ht
      have htt : t = (8 - k) + 8 * l := by omega
      have hsplit : (2 : Nat) ^ t = 2 ^ (8 - k) * 2 ^ (8 * l) := by
        rw [htt, Nat.pow_add]
      rw [hsplit]
      have hstep : (x * 256 ^ l + bytesVal xs) / (2 ^ (8 - k) * 2 ^ (8 * l)) = x / 2 ^ (8 - k) := by
        rw [Nat.mul_comm (2 ^ (8 - k)) (2 ^ (8 * l)), ← Nat.div_div_eq_div_mul]
        congr 1
        rw [h256, Nat.mul_comm x (2 ^ (8 * l)), Nat.add_div_of_dvd_right (Dvd.intro x rfl),
          Nat.mul_div_cancel_left x (Nat.pos_pow_of_pos _ (by norm_num))]
        have : bytesVal xs / 2 ^ (8 * l) = 0 := by
          apply Nat.div_eq_of_lt
          rw [← h256, ← hxl]
          exact hvxs
        rw [this, Nat.add_zero]
      rw [hstep, h256]
      ring

/-! ## Shapes of parsed IPs and CIDRs -/

theorem land_land_self (x y : Nat) : (x &&& y) &&& y = x &&& y := by
  apply Nat.eq_of_testBit_eq
  intro i
  simp [Nat.testBit_land, Bool.and_assoc]

theorem zipWith_land_idem (a m : List Nat) :
    List.zipWith (· &&& ·) (List.zipWith (· &&& ·) a m) m = List.zipWith (· &&& ·) a m := by
  induction a generalizing m with
  | nil => simp
  | cons x xs ih =>
    cases m with
    | nil => simp
    | cons y ys => simp [land_land_self, ih]

theorem allBytes_zipWith_land {a : List Nat} (m : List Nat) (ha : allBytes a) :
    allBytes (List.zipWith (· &&& ·) a m) := by
  induction a generalizing m with
  | nil => intro b hb; simp at hb
  | cons x xs ih =>
    cases m with
    | nil => intro b hb; simp at hb
    | cons y ys =>
      intro b hb
      rcases List.mem_cons.mp hb with h | h
      · have h1 : x &&& y ≤ x := Nat.and_le_left
        have h2 := ha x (List.mem_cons_self x xs)
        simp only at h
        omega
      · exact ih ys (fun c hc => ha c (List.mem_cons_of_mem x hc)) b h

theorem parseIPv4Groups_shape :
    ∀ (n : Nat) (s : List Char) (first : Bool) (vs : List Nat),
      parseIPv4Groups n s first = some vs → vs.length = n ∧ ∀ v ∈ vs, v < 256 := by
  intro n
  induction n with
  | zero =>
    intro s first vs h
    simp only [parseIPv4Groups] at h
    split at h
    · cases h; exact ⟨rfl, by intro v hv; simp at hv⟩
    · cases h
  | succ n ih =>
    intro s first vs h
    simp only [parseIPv4Groups] at h
    split at h
    · cases h
    · rename_i s2 _
      split at h
      · cases h
      · rename_i v c _
        split at h
        · cases h
        · rename_i hv
          rcases ho : parseIPv4Groups n (s2.drop c) false with _ | vs'
          · rw [ho] at h; cases h
          · rw [ho] at h
            cases h
            obtain ⟨hl, hb⟩ := ih _ _ _ ho
            refine ⟨by simp [hl], ?_⟩
            intro w hw
            rcases List.mem_cons.mp hw with rfl | hmem
            · omega
            · exact hb w hmem

theorem parseIPv4_shape (s : List Char) :
    parseIPv4 s = [] ∨
      ∃ a b c d, a < 256 ∧ b < 256 ∧ c < 256 ∧ d < 256 ∧ parseIPv4 s = ipv4 a b c d := by
  unfold parseIPv4
  rcases h : parseIPv4Groups 4 s true with _ | vs
  · left; rfl
  · obtain ⟨hl, hb⟩ := parseIPv4Groups_shape 4 s true vs h
    match vs, hl with
    | [a, b, c, d], _ =>
      right
      exact ⟨a, b, c, d, hb a (by simp), hb b (by simp), hb c (by simp), hb d (by simp), rfl⟩

theorem ipv4_length (a b c d : Nat) : (ipv4 a b c d).length = 16 := by
  simp [ipv4, v4InV6Head]

theorem ipv4_allBytes {a b c d : Nat} (ha : a < 256) (hb : b < 256) (hc : c < 256)
    (hd : d < 256) : allBytes (ipv4 a b c d) := by
  intro x hx
  simp [ipv4, v4InV6Head] at hx
  rcases hx with h | h | h | h | h | h <;> omega

theorem allBytes_append {a b : List Nat} (ha : allBytes a) (hb : allBytes b) :
    allBytes (a ++ b) := by
  intro x hx
  rcases List.mem_append.mp hx with h | h
  · exact ha x h
  · exact hb x h

theorem allBytes_take (n : Nat) {a : List Nat} (ha : allBytes a) : allBytes (a.take n) :=
  fun x hx => ha x (List.mem_of_mem_take hx)

theorem allBytes_drop (n : Nat) {a : List Nat} (ha : allBytes a) : allBytes (a.drop n) :=
  fun x hx => ha x (List.mem_of_mem_drop hx)

theorem allBytes_replicate (n : Nat) : allBytes (List.replicate n 0) := by
  intro x hx
  have := List.eq_of_mem_replicate hx
  omega

theorem parseIPv6Post_shape {acc : List Nat} {ell : Option Nat}
    (hle : acc.length ≤ 16) (hb : allBytes acc) :
    parseIPv6Post acc ell = [] ∨
      ((parseIPv6Post acc ell).length = 16 ∧ allBytes (parseIPv6Post acc ell)) := by
  unfold parseIPv6Post
  split
  · rename_i hlt
    cases ell with
    | none => left; rfl
    | some e =>
      right
      constructor
      · simp only [List.length_append, List.length_take, List.length_replicate,
          List.length_drop]
        omega
      · exact allBytes_append (allBytes_append (allBytes_take e hb) (allBytes_replicate _))
          (allBytes_drop e hb)
  · rename_i hge
    cases ell with
    | none =>
      right
      constructor
      · show acc.length = 16
        omega
      · exact hb
    | some _ => left; rfl

theorem parseIPv6Run_shape :
    ∀ (fuel : Nat) (s : List Char) (acc : List Nat) (ell : Option Nat),
      acc.length + 2 * fuel ≤ 16 → allBytes acc →
      parseIPv6Run fuel s acc ell = [] ∨
        ((parseIPv6Run fuel s acc ell).length = 16 ∧ allBytes (parseIPv6Run fuel s acc ell)) := by
  intro fuel
  induction fuel with
  | zero =>
    intro s acc ell hle hb
    rw [parseIPv6Run]
    split
    · exact parseIPv6Post_shape (by omega) hb
    · left; rfl
  | succ fuel ih =>
    intro s acc ell hle hb
    rw [parseIPv6Run]
    rcases hx : xtoi s with _ | ⟨n, c⟩
    · left; rfl
    · simp only []
      by_cases hn : 65535 < n
      · rw [if_pos hn]; left; rfl
      · rw [if_neg hn]
        by_cases hdot : (s.drop c).head? = some '.'
        · rw [if_pos hdot]
          by_cases h4a : ell = none ∧ acc.length ≠ 12
          · rw [if_pos h4a]; left; rfl
          · rw [if_neg h4a]
            by_cases h4b : 16 < acc.length + 4
            · rw [if_pos h4b]; left; rfl
            · rw [if_neg h4b]
              rcases parseIPv4_shape s with h0 | ⟨a, b, c', d, ha, hb', hc', hd', hip⟩
              · rw [h0]; left; rfl
              · rw [hip]
                have hipl : ipv4 a b c' d =
                    0 :: 0 :: 0 :: 0 :: 0 :: 0 :: 0 :: 0 :: 0 :: 0 :: 255 :: 255 ::
                      a :: b :: c' :: d :: [] := by
                  simp [ipv4, v4InV6Head]
                rw [hipl]
                show parseIPv6Post (acc ++ [a, b, c', d]) ell = [] ∨ _
                refine parseIPv6Post_shape ?_ ?_
                · simp only [List.length_append, List.length_cons, List.length_nil]
                  omega
                · refine allBytes_append hb ?_
                  intro x hx2
                  simp at hx2
                  rcases hx2 with rfl | rfl | rfl | rfl <;> omega
        · rw [if_neg hdot]
          have hacc' : allBytes (acc ++ [n >>> 8, n &&& 255]) := by
            apply allBytes_append hb
            intro x hx2
            simp at hx2
            have h1 : n >>> 8 = n / 256 := by
              simp [Nat.shiftRight_eq_div_pow]
            have h2 : n &&& 255 ≤ 255 := Nat.and_le_right
            rcases hx2 with rfl | rfl <;> omega
          have hlacc' : (acc ++ [n >>> 8, n &&& 255]).length = acc.length + 2 := by simp
          split
      
          · exact parseIPv6Post_shape (by omega) hacc'
          · rename_i rest heq
            by_cases hre : rest.isEmpty
            · rw [if_pos hre]; left; rfl
            · rw [if_neg hre]
              split
              · split
                · left; rfl
                · split
                  · exact parseIPv6Post_shape (by omega) hacc'
                  · exact ih _ _ _ (by omega) hacc'
              · exact ih _ _ _ (by omega) hacc'
          · left; rfl

theorem parseIPv6_shape (s : List Char) :
    parseIPv6 s = [] ∨ ((parseIPv6 s).length = 16 ∧ allBytes (parseIPv6 s)) := by
  unfold parseIPv6
  split
  · split
    · right
      refine ⟨by simp, allBytes_replicate 16⟩
    · exact parseIPv6Run_shape 8 _ [] (some 0) (by simp) (by intro b hb; simp at hb)
  · exact parseIPv6Run_shape 8 _ [] none (by simp) (by intro b hb; simp at hb)

theorem ipv4_take12 (a b c d : Nat) : (ipv4 a b c d).take 12 = v4InV6Head := by
  simp [ipv4, v4InV6Head]

theorem ipv4_drop12 (a b c d : Nat) : (ipv4 a b c d).drop 12 = [a, b, c, d] := by
  simp [ipv4, v4InV6Head]

theorem parseIPv4_shape' (s : List Char) :
    parseIPv4 s = [] ∨
      ((parseIPv4 s).length = 16 ∧ allBytes (parseIPv4 s)) := by
  rcases parseIPv4_shape s with h | ⟨a, b, c, d, ha, hb, hc, hd, hip⟩
  · left; exact h
  · right
    rw [hip]
    exact ⟨ipv4_length a b c d, ipv4_allBytes ha hb hc hd⟩

theorem goParseIP_shape (s : List Char) :
    goParseIP s = [] ∨ ((goParseIP s).length = 16 ∧ allBytes (goParseIP s)) := by
  unfold goParseIP
  split
  · exact parseIPv4_shape' s
  · exact parseIPv6_shape s
  · left; rfl

theorem to4_of_len16 {ip : GoIP} (h : ip.length = 16) :
    to4 ip = [] ∨ (to4 ip = ip.drop 12 ∧ (to4 ip).length = 4) := by
  unfold to4
  rw [if_neg (by omega)]
  by_cases hm : ip.length = 16 ∧ ip.take 12 = v4InV6Head
  · rw [if_pos hm]
    right
    refine ⟨rfl, ?_⟩
    simp [h]
  · rw [if_neg hm]
    left; rfl

/-- Shape of the canonicalized query: nil, a 4-byte address, or a 16-byte
address that is not IPv4-mapped. -/
theorem canonIP_shape (s : String) :
    canonIP s = [] ∨
      ((canonIP s).length = 4 ∧ allBytes (canonIP s)) ∨
      ((canonIP s).length = 16 ∧ allBytes (canonIP s) ∧ to4 (canonIP s) = []) := by
  unfold canonIP
  simp only []
  rcases goParseIP_shape s.data with h | ⟨hl, hb⟩
  · rw [h]
    left
    simp [to4]
  · rcases to4_of_len16 hl with h4 | ⟨h4, h4l⟩
    · rw [h4]
      simp only [List.isEmpty_nil, not_true_eq_false, if_false]
      right; right
      exact ⟨hl, hb, h4⟩
    · right; left
      have hne : ¬(to4 (goParseIP s.data)).isEmpty := by
        rw [List.isEmpty_iff]
        intro hcon
        rw [hcon] at h4l
        simp at h4l
      rw [if_pos hne]
      exact ⟨h4l, h4 ▸ allBytes_drop 12 hb⟩

theorem dtoi_full {s : List Char} {n : Nat} (h : dtoi s = some (n, s.length)) :
    s ≠ [] ∧ (∀ c ∈ s, isDigit c) ∧ n = decVal s := by
  have h' : (if (s.takeWhile isDigit).isEmpty then (none : Option (Nat × Nat))
      else if 16777215 ≤ decVal (s.takeWhile isDigit) then none
      else some (decVal (s.takeWhile isDigit), (s.takeWhile isDigit).length)) =
      some (n, s.length) := h
  split at h'
  · cases h'
  · split at h'
    · cases h'
    · rename_i hne hbig
      injection h' with h'
      injection h' with h1 h2
      have hself : s.takeWhile isDigit = s :=
        (List.takeWhile_prefix isDigit).eq_of_length h2
      refine ⟨?_, ?_, ?_⟩
      · intro hcon
        subst hcon
        simp at hne
      · intro c hc
        exact List.mem_takeWhile_imp (hself ▸ hc)
      · rw [← h1, hself]

theorem ipApplyMask_of_len {ip m : List Nat} {L : Nat}
    (hip : ip.length = L) (hm : m.length = L) :
    ipApplyMask ip m = List.zipWith (· &&& ·) ip m := by
  have hadjm : ipMaskAdjMask ip m = m := by
    unfold ipMaskAdjMask
    rw [if_neg]
    rintro ⟨h16, h4, -⟩
    omega
  have hadji : ipMaskAdjIP ip m = ip := by
    unfold ipMaskAdjIP
    rw [if_neg]
    rintro ⟨h4, h16, -⟩
    omega
  unfold ipApplyMask
  rw [hadjm, hadji, if_pos (by omega)]

theorem ipApplyMask_mapped {ip m : List Nat} (hip : ip.length = 16)
    (htk : ip.take 12 = v4InV6Head) (hm : m.length = 4) :
    ipApplyMask ip m = List.zipWith (· &&& ·) (ip.drop 12) m := by
  have hadjm : ipMaskAdjMask ip m = m := by
    unfold ipMaskAdjMask
    rw [if_neg]
    rintro ⟨h16, -, -⟩
    omega
  have hadji : ipMaskAdjIP ip m = ip.drop 12 := by
    unfold ipMaskAdjIP
    rw [if_pos ⟨hm, hip, htk⟩]
  unfold ipApplyMask
  rw [hadjm, hadji, if_pos (by simp [hip, hm])]

/-- `net.ParseCIDR` success: the network is 4 or 16 bytes of the address
family's length, canonical under its own mask, and the mask is the
contiguous mask of the parsed length. -/
theorem goParseCIDR_shape {s : List Char} {ip m : List Nat}
    (h : goParseCIDR s = some (ip, m)) :
    ∃ (L n : Nat) (addr maskStr : List Char),
      (L = 4 ∨ L = 16) ∧ n ≤ 8 * L ∧ ip.length = L ∧ allBytes ip ∧
        m = cidrMaskBytes n L ∧ ip = List.zipWith (· &&& ·) ip m ∧
        splitAtFirst '/' s = some (addr, maskStr) ∧
        dtoi maskStr = some (n, maskStr.length) := by
  unfold goParseCIDR at h
  rcases hsp : splitAtFirst '/' s with _ | ⟨addr, maskStr⟩ <;> rw [hsp] at h
  · cases h
  · simp only [] at h
    rcases hdt : dtoi maskStr with _ | ⟨n, c⟩ <;> rw [hdt] at h
    · cases h
    · simp only [] at h
      rcases hp4 : parseIPv4 addr with _ | ⟨b0, bs⟩ <;> rw [hp4] at h
      · -- IPv6 address family
        simp only [List.isEmpty_nil, if_true] at h
        split at h
        · cases h
        · rename_i hok
          push_neg at hok
          obtain ⟨hne, hcl, hnle⟩ := hok
          rcases parseIPv6_shape addr with h6 | ⟨h6l, h6b⟩
          · rw [h6] at hne; simp at hne
          · have hcm : CIDRMask n (8 * 16) = some (cidrMaskBytes n 16) := by
              unfold CIDRMask
              rw [if_pos ⟨Or.inr (by norm_num), by omega⟩]
            rw [hcm, Option.map_some'] at h
            injection h with h
            injection h with h1 h2
            have hml : (cidrMaskBytes n 16).length = 16 := cidrMaskBytes_length n 16
            have hmask6 := ipApplyMask_of_len h6l hml
            refine ⟨16, n, addr, maskStr, Or.inr rfl, by omega, ?_, ?_, h2.symm, ?_, rfl,
              by rw [hdt, hcl]⟩
            · rw [← h1, hmask6, List.length_zipWith, h6l, hml]
              simp
            · rw [← h1, hmask6]
              exact allBytes_zipWith_land _ h6b
            · rw [← h1, ← h2, hmask6, zipWith_land_idem]
      · -- IPv4 address family
        simp only [List.isEmpty_cons, if_false, Bool.false_eq_true] at h
        split at h
        · cases h
        · rename_i hok
          push_neg at hok
          obtain ⟨hne, hcl, hnle⟩ := hok
          rcases parseIPv4_shape addr with h0 | ⟨a, b, c', d, ha, hb', hc', hd', hip⟩
          · rw [h0] at hp4; cases hp4
          · rw [hp4] at hip
            have hcm : CIDRMask n (8 * 4) = some (cidrMaskBytes n 4) := by
              unfold CIDRMask
              rw [if_pos ⟨Or.inl (by norm_num), by omega⟩]
            rw [hcm, Option.map_some'] at h
            injection h with h
            injection h with h1 h2
            have hml : (cidrMaskBytes n 4).length = 4 := cidrMaskBytes_length n 4
            have hbl : (b0 :: bs).length = 16 := by rw [hip]; exact ipv4_length a b c' d
            have htk : (b0 :: bs).take 12 = v4InV6Head := by
              rw [hip]; exact ipv4_take12 a b c' d
            have hdp : (b0 :: bs).drop 12 = [a, b, c', d] := by
              rw [hip]; exact ipv4_drop12 a b c' d
            have hmask4 := ipApplyMask_mapped hbl htk hml
            rw [hdp] at hmask4
            refine ⟨4, n, addr, maskStr, Or.inl rfl, by omega, ?_, ?_, h2.symm, ?_, rfl,
              by rw [hdt, hcl]⟩
            · rw [← h1, hmask4, List.length_zipWith, hml]
              rfl
            · rw [← h1, hmask4]
              refine allBytes_zipWith_land _ ?_
              intro x hx
              simp only [List.mem_cons, List.not_mem_nil, or_false] at hx
              rcases hx with rfl | rfl | rfl | rfl <;> omega
            · rw [← h1, ← h2, hmask4, zipWith_land_idem]

theorem splitAtFirst_no_sep {p : List Char} (l : List Char) (hp : '/' ∉ p) :
    splitAtFirst '/' (p ++ '/' :: l) = some (p, l) := by
  induction p with
  | nil => simp [splitAtFirst]
  | cons c cs ih =>
    have hc : c ≠ '/' := fun hcon => hp (hcon ▸ List.mem_cons_self c cs)
    have hcs : '/' ∉ cs := fun hcon => hp (List.mem_cons_of_mem c hcon)
    simp only [List.cons_append, splitAtFirst, if_neg hc]
    rw [show cs.append ('/' :: l) = cs ++ '/' :: l from rfl, ih hcs]
    rfl

theorem splitAtFirst_with_sep {p : List Char} (l : List Char) (hp : '/' ∈ p) :
    ∃ p1 p2, splitAtFirst '/' (p ++ '/' :: l) = some (p1, p2) ∧ '/' ∈ p2 := by
  induction p with
  | nil => simp at hp
  | cons c cs ih =>
    by_cases hc : c = '/'
    · subst hc
      refine ⟨[], cs ++ '/' :: l, ?_, ?_⟩
      · simp [splitAtFirst]
      · simp
    · have hcs : '/' ∈ cs := by
        rcases List.mem_cons.mp hp with h | h
        · exact absurd h.symm hc
        · exact h
      obtain ⟨p1, p2, hsp, hmem⟩ := ih hcs
      exact ⟨c :: p1, p2, by simp [splitAtFirst, if_neg hc, hsp], hmem⟩

/-- A successfully parsed RouteView row: the netblock size equals the
mask's prefix-length count, the network is canonical, and the family
length is 4 or 16. -/
theorem parseRow_shape {rec : List String} {k : Int} {e : RVNet}
    (h : parseRow rec = some (k, e)) :
    ∃ L : Nat, (L = 4 ∨ L = 16) ∧ e.ip.length = L ∧ allBytes e.ip ∧ 0 ≤ k ∧
      k.toNat ≤ 8 * L ∧ e.mask = cidrMaskBytes k.toNat L ∧
      e.ip = List.zipWith (· &&& ·) e.ip e.mask := by
  unfold parseRow at h
  rcases rec with _ | ⟨p, rec1⟩
  · cases h
  · rcases rec1 with _ | ⟨l, rec2⟩
    · cases h
    · rcases rec2 with _ | ⟨sys, rec3⟩
      · cases h
      · simp only [] at h
        rcases hint : goParseInt32 l.data with _ | nb <;> rw [hint] at h
        · cases h
        · simp only [] at h
          rcases hcdr : goParseCIDR (p.data ++ '/' :: l.data) with _ | ⟨ip0, m0⟩ <;>
            rw [hcdr] at h
          · cases h
          · injection h with h
            injection h with hk he
            subst hk
            obtain ⟨L, n, addr, maskStr, hLor, hnle, hipl, hipb, hm, hcanon, hsp, hdt⟩ :=
              goParseCIDR_shape hcdr
            -- the mask string is exactly the second field
            have hms : addr = p.data ∧ maskStr = l.data := by
              by_cases hmem : '/' ∈ p.data
              · obtain ⟨p1, p2, hsp2, hmem2⟩ := splitAtFirst_with_sep l.data hmem
                rw [hsp2] at hsp
                injection hsp with hsp
                injection hsp with hsp1 hsp2'
                obtain ⟨-, hdig, -⟩ := dtoi_full hdt
                have := hdig '/' (hsp2' ▸ hmem2)
                simp [isDigit] at this
              · have hsp1 := splitAtFirst_no_sep l.data hmem
                rw [hsp1] at hsp
                injection hsp with hsp
                injection hsp with h1 h2
                exact ⟨h1.symm, h2.symm⟩
            obtain ⟨rfl, rfl⟩ : addr = p.data ∧ maskStr = l.data := hms
            obtain ⟨hne, hdig, hnval⟩ := dtoi_full hdt
            -- the netblock integer equals the mask length
            have hkn : nb = (n : Int) := by
              unfold goParseInt32 at hint
              split at hint
              · rename_i r heq
                have : isDigit '+' := hdig '+' (by rw [heq]; exact List.mem_cons_self _ _)
                simp [isDigit] at this
              · rename_i r heq
                have : isDigit '-' := hdig '-' (by rw [heq]; exact List.mem_cons_self _ _)
                simp [isDigit] at this
              · rename_i r hne1 hne2
                simp only [List.isEmpty_iff, if_neg hne] at hint
                rw [if_pos (List.all_eq_true.mpr hdig)] at hint
                simp only [Option.some_bind] at hint
                split at hint
                · injection hint with hint
                  rw [← hint, hnval]
                · cases hint
            rw [← he]
            refine ⟨L, hLor, hipl, hipb, by omega, ?_, ?_, hcanon⟩
            · rw [hkn]
              simpa using hnle
            · rw [hkn]
              simpa using hm

/-! ## Structure of the built index -/

theorem ParseRouteView_eq (blob : String) :
    ParseRouteView blob = (rvKeys blob).map (groupOf blob) := rfl

theorem mem_groupOf_iff {blob : String} {k : Int} {e : RVNet} :
    e ∈ groupOf blob k ↔ (k, e) ∈ rvRows blob := by
  unfold groupOf
  rw [(List.perm_insertionSort rvLE _).mem_iff, List.mem_map]
  constructor
  · rintro ⟨⟨k', e'⟩, hmem, rfl⟩
    obtain ⟨hm, hk⟩ := List.mem_filter.mp hmem
    have : k' = k := by simpa using hk
    subst this
    exact hm
  · intro hmem
    exact ⟨(k, e), List.mem_filter.mpr ⟨hmem, by simp⟩, rfl⟩

theorem groupOf_sorted (blob : String) (k : Int) :
    List.Pairwise rvLE (groupOf blob k) :=
  List.sorted_insertionSort rvLE _

theorem mem_rvRows_shape {blob : String} {k : Int} {e : RVNet}
    (h : (k, e) ∈ rvRows blob) :
    ∃ rec ∈ csvRecords blob, parseRow rec = some (k, e) := by
  obtain ⟨rec, hrec, hp⟩ := List.mem_filterMap.mp h
  exact ⟨rec, hrec, hp⟩

theorem rvKeys_strict_desc (blob : String) :
    List.Pairwise (· > ·) (rvKeys blob) := by
  have hs : List.Pairwise (· ≥ ·) (rvKeys blob) :=
    List.sorted_insertionSort (· ≥ ·) _
  have hn : (rvKeys blob).Nodup :=
    (List.perm_insertionSort (· ≥ ·) _).nodup_iff.mpr (List.nodup_dedup _)
  have := hs.and hn
  exact this.imp (fun h => lt_of_le_of_ne h.1.le (Ne.symm h.2))

theorem groupOf_ne_nil {blob : String} {k : Int} (h : k ∈ rvKeys blob) :
    groupOf blob k ≠ [] := by
  unfold rvKeys at h
  rw [(List.perm_insertionSort (· ≥ ·) _).mem_iff, List.mem_dedup, List.mem_map] at h
  obtain ⟨⟨k', e⟩, hmem, hk⟩ := h
  have : k' = k := hk
  subst this
  intro hcon
  have : e ∈ groupOf blob k' := mem_groupOf_iff.mpr hmem
  rw [hcon] at this
  simp at this

theorem mem_index_group {blob : String} {g : List RVNet}
    (h : g ∈ ParseRouteView blob) : ∃ k ∈ rvKeys blob, g = groupOf blob k := by
  rw [ParseRouteView_eq, List.mem_map] at h
  obtain ⟨k, hk, rfl⟩ := h
  exact ⟨k, hk, rfl⟩

theorem cidrMaskBytes_zero (l : Nat) : cidrMaskBytes 0 l = List.replicate l 0 := by
  induction l with
  | zero => rfl
  | succ l ih =>
    rw [cidrMaskBytes, if_neg (by omega), ih]
    have : maskByte 0 = 0 := by decide
    rw [this]
    rfl

theorem simpleMaskLength_cidr {n l : Nat} (h : n ≤ 8 * l) :
    simpleMaskLength (cidrMaskBytes n l) = some n := by
  induction l generalizing n with
  | zero =>
    have : n = 0 := by omega
    subst this
    rfl
  | succ l ih =>
    rw [cidrMaskBytes]
    by_cases h8 : 8 ≤ n
    · rw [if_pos h8]
      rw [simpleMaskLength, if_pos rfl, ih (by omega)]
      simp
      omega
    · rw [if_neg h8]
      have hlt : n < 8 := by omega
      have hmb : maskByte n ≠ 255 := by
        have : ∀ m < 8, maskByte m ≠ 255 := by decide
        exact this n hlt
      have hlead : byteLeadingOnes 8 (maskByte n) = (n, 0) := by
        have : ∀ m < 8, byteLeadingOnes 8 (maskByte m) = (m, 0) := by decide
        exact this n hlt
      rw [simpleMaskLength, if_neg hmb, hlead]
      simp only [ne_eq, not_true_eq_false, if_false]
      rw [if_neg (by rw [cidrMaskBytes_zero]; simp)]

theorem groupOf_entry_shape {blob : String} {k : Int} {e : RVNet}
    (h : e ∈ groupOf blob k) :
    ∃ L : Nat, (L = 4 ∨ L = 16) ∧ e.ip.length = L ∧ allBytes e.ip ∧ 0 ≤ k ∧
      k.toNat ≤ 8 * L ∧ e.mask = cidrMaskBytes k.toNat L ∧
      e.ip = List.zipWith (· &&& ·) e.ip e.mask := by
  obtain ⟨rec, hrec, hp⟩ := mem_rvRows_shape (mem_groupOf_iff.mp h)
  exact parseRow_shape hp

/-- C10: the index built by ParseRouteView is well-formed: every group is
a nonempty run of entries of one prefix length, the groups appear in
strictly decreasing order of prefix length, the entries of every group
are sorted by network byte-string, and every entry comes from a row that
passed all three parsing steps (at least three fields, an integer
netblock size, a parseable CIDR). -/
theorem c10_parseRouteView_wellformed (blob : String) :
    (∀ g ∈ ParseRouteView blob, g ≠ [] ∧
      ∃ n : Nat, ∀ e ∈ g, simpleMaskLength e.mask = some n) ∧
    List.Pairwise (fun g h => ∀ eg ∈ g, ∀ eh ∈ h, ∃ a b : Nat,
      simpleMaskLength eg.mask = some a ∧ simpleMaskLength eh.mask = some b ∧ b < a)
      (ParseRouteView blob) ∧
    (∀ g ∈ ParseRouteView blob, List.Pairwise (fun a b => bytesCmp a.ip b.ip ≠ .gt) g) ∧
    (∀ g ∈ ParseRouteView blob, ∀ e ∈ g,
      ∃ rec ∈ csvRecords blob, ∃ k, parseRow rec = some (k, e)) := by
  refine ⟨?_, ?_, ?_, ?_⟩
  · intro g hg
    obtain ⟨k, hk, rfl⟩ := mem_index_group hg
    refine ⟨groupOf_ne_nil hk, k.toNat, ?_⟩
    intro e he
    obtain ⟨L, hLor, hipl, hipb, hk0, hkle, hm, hcanon⟩ := groupOf_entry_shape he
    rw [hm]
    exact simpleMaskLength_cidr hkle
  · rw [ParseRouteView_eq, List.pairwise_map]
    refine (rvKeys_strict_desc blob).imp ?_
    intro k1 k2 hgt eg heg eh heh
    obtain ⟨L1, _, _, _, hk01, hkle1, hm1, _⟩ := groupOf_entry_shape heg
    obtain ⟨L2, _, _, _, hk02, hkle2, hm2, _⟩ := groupOf_entry_shape heh
    refine ⟨k1.toNat, k2.toNat, ?_, ?_, ?_⟩
    · rw [hm1]; exact simpleMaskLength_cidr hkle1
    · rw [hm2]; exact simpleMaskLength_cidr hkle2
    · omega
  · intro g hg
    obtain ⟨k, hk, rfl⟩ := mem_index_group hg
    exact groupOf_sorted blob k
  · intro g hg e he
    obtain ⟨k, hk, rfl⟩ := mem_index_group hg
    obtain ⟨rec, hrec, hp⟩ := mem_rvRows_shape (mem_groupOf_iff.mp he)
    exact ⟨rec, hrec, k, hp⟩

/-! ## Search correctness on single-family indices -/

theorem bytesVal_inj {a b : List Nat} (hl : a.length = b.length) (ha : allBytes a)
    (hb : allBytes b) (hv : bytesVal a = bytesVal b) : a = b := by
  have := bytesCmp_eq_compare hl ha hb
  rw [Nat.compare_eq_eq.mpr hv] at this
  exact bytesCmp_eq_iff.mp this

theorem to4_of_len4 {ip : GoIP} (h : ip.length = 4) : to4 ip = ip := by
  unfold to4
  rw [if_pos h]

/-- The canonical query shapes: nil, 4 bytes, or non-mapped 16 bytes. -/
def canonShape (c : GoIP) : Prop :=
  c = [] ∨ (c.length = 4 ∧ allBytes c) ∨ (c.length = 16 ∧ allBytes c ∧ to4 c = [])

theorem canonShape_to4 {c : GoIP} (h : canonShape c) :
    (if (to4 c).isEmpty then c else to4 c) = c := by
  rcases h with rfl | ⟨h4, -⟩ | ⟨-, -, h16⟩
  · rfl
  · rw [to4_of_len4 h4]
    split <;> rfl
  · rw [h16]
    rfl

/-- On a single-family entry, `Contains` holds exactly when the query has
the entry's length and masks down to the entry's network. -/
theorem rvContains_char {e : RVNet} {c : GoIP} {L : Nat}
    (hLor : L = 4 ∨ L = 16) (hipl : e.ip.length = L) (h16 : L = 16 → to4 e.ip = [])
    (hml : e.mask.length = L)
    (hcanon : e.ip = List.zipWith (· &&& ·) e.ip e.mask)
    (hc : canonShape c) :
    rvContains e c = true ↔
      (c.length = L ∧ e.ip = List.zipWith (· &&& ·) c e.mask) := by
  have hnnm : networkNumberAndMask e = some (e.ip, e.mask) := by
    unfold networkNumberAndMask
    rcases hLor with rfl | rfl
    · simp only [to4_of_len4 hipl, ite_self]
      have h1 : ¬(e.ip.isEmpty = true ∧ e.ip.length ≠ 16) := by
        rw [List.isEmpty_iff]
        rintro ⟨hcon, -⟩
        rw [hcon] at hipl
        simp at hipl
      rw [if_neg h1, if_pos hml, if_neg (by omega)]
    · have h16' := h16 rfl
      simp only [h16', List.isEmpty_nil, if_true, true_and]
      rw [if_neg (by omega), if_neg (by omega), if_pos hml, if_neg (by omega)]
  unfold rvContains
  rw [hnnm]
  simp only [Option.getD_some]
  rw [show (if (to4 c).isEmpty then c else to4 c) = c from canonShape_to4 hc]
  constructor
  · intro h
    rw [decide_eq_true_iff] at h
    obtain ⟨h1, h2⟩ := h
    refine ⟨by omega, ?_⟩
    rw [hcanon]
    exact h2
  · rintro ⟨h1, h2⟩
    rw [decide_eq_true_iff]
    refine ⟨by omega, ?_⟩
    rw [← hcanon]
    exact h2

theorem get?_mem {g : List RVNet} {n : Nat} {e : RVNet} (h : g.get? n = some e) : e ∈ g :=
  List.get?_mem h

theorem le_of_compare_ne_lt {a b : Nat} (h : compare a b ≠ .lt) : b ≤ a := by
  rcases ho : compare a b with _ | _ | _
  · exact absurd ho h
  · exact le_of_eq (Nat.compare_eq_eq.mp ho).symm
  · exact le_of_lt (Nat.compare_eq_gt.mp ho)

theorem le_of_compare_ne_gt {a b : Nat} (h : compare a b ≠ .gt) : a ≤ b := by
  rcases ho : compare a b with _ | _ | _
  · exact le_of_lt (Nat.compare_eq_lt.mp ho)
  · exact le_of_eq (Nat.compare_eq_eq.mp ho)
  · exact absurd ho h

theorem compare_ne_lt_of_le {a b : Nat} (h : b ≤ a) : compare a b ≠ .lt := by
  intro hcon
  rw [Nat.compare_eq_lt] at hcon
  omega

/-- On a single-family group that contains the query, `sort.Search` with
`Index.Search`'s predicate lands on a containing entry, and every
containing entry of the group has the same network bytes. -/
theorem searchGroup_found {blob : String} {k : Int} {L : Nat} {c : GoIP}
    (hc : canonShape c)
    (hpureL : ∀ e ∈ groupOf blob k, e.ip.length = L ∧ (L = 16 → to4 e.ip = []))
    (hex : ∃ e ∈ groupOf blob k, rvContains e c = true) :
    ∃ e, (groupOf blob k).get? (goSortSearch (groupOf blob k).length
        (searchF (groupOf blob k) c)) = some e ∧ rvContains e c = true ∧
      ∀ e' ∈ groupOf blob k, rvContains e' c = true → e'.ip = e.ip := by
  obtain ⟨et, hetmem, hetcon⟩ := hex
  have hshape : ∀ e ∈ groupOf blob k, e.ip.length = L ∧ (L = 16 → to4 e.ip = []) ∧
      allBytes e.ip ∧ e.mask = cidrMaskBytes k.toNat L ∧ k.toNat ≤ 8 * L ∧
      e.ip = List.zipWith (· &&& ·) e.ip e.mask ∧ (L = 4 ∨ L = 16) := by
    intro e he
    obtain ⟨hL, h16⟩ := hpureL e he
    obtain ⟨L', hL'or, hipl, hipb, hk0, hkle, hm, hcanon⟩ := groupOf_entry_shape he
    have hLL : L' = L := by rw [← hL, ← hipl]
    subst hLL
    exact ⟨hL, h16, hipb, hm, hkle, hcanon, hL'or⟩
  obtain ⟨hLt, h16t, hbt, hmt, hklet, hcant, hLor⟩ := hshape et hetmem
  have hchar : ∀ e ∈ groupOf blob k, (rvContains e c = true ↔
      (c.length = L ∧ e.ip = List.zipWith (· &&& ·) c (cidrMaskBytes k.toNat L))) := by
    intro e he
    obtain ⟨hL, h16, hb, hm, hkle, hcanon, -⟩ := hshape e he
    have hiff := rvContains_char hLor hL h16
      (by rw [hm, cidrMaskBytes_length]) hcanon hc
    rw [hm] at hiff
    exact hiff
  have hcl : c.length = L := ((hchar et hetmem).mp hetcon).1
  have hw : et.ip = List.zipWith (· &&& ·) c (cidrMaskBytes k.toNat L) :=
    ((hchar et hetmem).mp hetcon).2
  have hcb : allBytes c := by
    rcases hc with rfl | ⟨-, hb⟩ | ⟨-, hb, -⟩
    · intro b hb2; simp at hb2
    · exact hb
    · exact hb
  have hwval : bytesVal (List.zipWith (· &&& ·) c (cidrMaskBytes k.toNat L)) =
      bytesVal c / 2 ^ (8 * L - k.toNat) * 2 ^ (8 * L - k.toNat) :=
    bytesVal_land_mask hcl hcb hklet
  have hwlen : (List.zipWith (· &&& ·) c (cidrMaskBytes k.toNat L)).length = L := by
    rw [List.length_zipWith, hcl, cidrMaskBytes_length]; simp
  have hwb : allBytes (List.zipWith (· &&& ·) c (cidrMaskBytes k.toNat L)) :=
    allBytes_zipWith_land _ hcb
  have hvmul : ∀ e ∈ groupOf blob k,
      bytesVal e.ip = bytesVal e.ip / 2 ^ (8 * L - k.toNat) * 2 ^ (8 * L - k.toNat) := by
    intro e he
    obtain ⟨hL, -, hb, hm, hkle, hcanon, -⟩ := hshape e he
    conv_lhs => rw [hcanon, hm]
    exact bytesVal_land_mask hL hb hkle
  -- comparisons between entries and the query are value comparisons
  have hcmpc : ∀ e ∈ groupOf blob k, bytesCmp e.ip c = compare (bytesVal e.ip) (bytesVal c) := by
    intro e he
    obtain ⟨hL, -, hb, -, -, -, -⟩ := hshape e he
    exact bytesCmp_eq_compare (by omega) hb hcb
  have hcmpe : ∀ e ∈ groupOf blob k, ∀ e' ∈ groupOf blob k,
      bytesCmp e.ip e'.ip = compare (bytesVal e.ip) (bytesVal e'.ip) := by
    intro e he e' he'
    obtain ⟨hL, -, hb, -, -, -, -⟩ := hshape e he
    obtain ⟨hL', -, hb', -, -, -, -⟩ := hshape e' he'
    exact bytesCmp_eq_compare (by omega) hb hb'
  have hcwle : bytesVal (List.zipWith (· &&& ·) c (cidrMaskBytes k.toNat L)) ≤ bytesVal c := by
    rw [hwval]
    exact Nat.div_mul_le_self _ _
  -- a containing entry forces any sorted-later entry to satisfy the predicate
  have hsorted := groupOf_sorted blob k
  have hget : ∀ (i j : Nat) (hi : i < (groupOf blob k).length)
      (hj : j < (groupOf blob k).length), i ≤ j →
      rvLE ((groupOf blob k).get ⟨i, hi⟩) ((groupOf blob k).get ⟨j, hj⟩) := by
    intro i j hi hj hij
    rcases Nat.lt_or_ge i j with hlt | hge
    · exact List.pairwise_iff_get.mp hsorted ⟨i, hi⟩ ⟨j, hj⟩ hlt
    · have : i = j := by omega
      subst this
      unfold rvLE
      rw [bytesCmp_self]
      simp
  have hmono : ∀ i j, i ≤ j → j < (groupOf blob k).length →
      searchF (groupOf blob k) c i = true → searchF (groupOf blob k) c j = true := by
    intro i j hij hj hfi
    have hi : i < (groupOf blob k).length := by omega
    have hgi : (groupOf blob k).get? i = some ((groupOf blob k).get ⟨i, hi⟩) :=
      List.get?_eq_get hi
    have hgj : (groupOf blob k).get? j = some ((groupOf blob k).get ⟨j, hj⟩) :=
      List.get?_eq_get hj
    set ei := (groupOf blob k).get ⟨i, hi⟩ with hei
    set ej := (groupOf blob k).get ⟨j, hj⟩ with hej
    have heim : ei ∈ groupOf blob k := List.get_mem _ _ _
    have hejm : ej ∈ groupOf blob k := List.get_mem _ _ _
    have hle : rvLE ei ej := hget i j hi hj hij
    unfold searchF at hfi ⊢
    rw [hgi] at hfi
    rw [hgj]
    simp only [Bool.or_eq_true, decide_eq_true_iff] at hfi ⊢
    unfold rvLE at hle
    rw [hcmpe ei heim ej hejm] at hle
    rcases hfi with hcon | hcmp
    · -- ei contains c
      have heiw := ((hchar ei heim).mp hcon).2
      by_cases hjw : ej.ip = List.zipWith (· &&& ·) c (cidrMaskBytes k.toNat L)
      · left
        exact (hchar ej hejm).mpr ⟨hcl, hjw⟩
      · right
        rw [hcmpc ej hejm]
        refine compare_ne_lt_of_le ?_
        -- val ej > val w since ej ≥ ei = w and ej ≠ w
        have hvge : bytesVal ei.ip ≤ bytesVal ej.ip := le_of_compare_ne_gt hle
        have hvne : bytesVal ej.ip ≠
            bytesVal (List.zipWith (· &&& ·) c (cidrMaskBytes k.toNat L)) := by
          intro hcon2
          exact hjw (bytesVal_inj (by
            obtain ⟨hLj, -, -, -, -, -, -⟩ := hshape ej hejm
            omega) (hshape ej hejm).2.2.1 hwb hcon2)
        have hejmul := hvmul ej hejm
        have hvgt : bytesVal (List.zipWith (· &&& ·) c (cidrMaskBytes k.toNat L)) <
            bytesVal ej.ip := by
          rw [← heiw] at hvne ⊢
          omega
        -- both are multiples of the block size, so ej jumps past c entirely
        have hstep : bytesVal (List.zipWith (· &&& ·) c (cidrMaskBytes k.toNat L)) +
            2 ^ (8 * L - k.toNat) ≤ bytesVal ej.ip := by
          rw [hwval, hejmul]
          rw [hwval] at hvgt
          rw [hejmul] at hvgt
          have h2pos : 0 < 2 ^ (8 * L - k.toNat) := Nat.pos_pow_of_pos _ (by norm_num)
          have hdivlt : bytesVal c / 2 ^ (8 * L - k.toNat) <
              bytesVal ej.ip / 2 ^ (8 * L - k.toNat) := by
            by_contra hcon2
            push_neg at hcon2
            have hmul := Nat.mul_le_mul_right (2 ^ (8 * L - k.toNat)) hcon2
            exact absurd hvgt (not_lt.mpr hmul)
          calc bytesVal c / 2 ^ (8 * L - k.toNat) * 2 ^ (8 * L - k.toNat) +
                2 ^ (8 * L - k.toNat)
              = (bytesVal c / 2 ^ (8 * L - k.toNat) + 1) * 2 ^ (8 * L - k.toNat) := by ring
            _ ≤ bytesVal ej.ip / 2 ^ (8 * L - k.toNat) * 2 ^ (8 * L - k.toNat) :=
                Nat.mul_le_mul_right _ (by omega)
        have hclt : bytesVal c <
            bytesVal (List.zipWith (· &&& ·) c (cidrMaskBytes k.toNat L)) +
              2 ^ (8 * L - k.toNat) := by
          rw [hwval]
          have h2pos : 0 < 2 ^ (8 * L - k.toNat) := Nat.pos_pow_of_pos _ (by norm_num)
          have hlt := (Nat.div_lt_iff_lt_mul h2pos).mp
            (Nat.lt_succ_self (bytesVal c / 2 ^ (8 * L - k.toNat)))
          calc bytesVal c
              < (bytesVal c / 2 ^ (8 * L - k.toNat) + 1) * 2 ^ (8 * L - k.toNat) := hlt
            _ = bytesVal c / 2 ^ (8 * L - k.toNat) * 2 ^ (8 * L - k.toNat) +
                2 ^ (8 * L - k.toNat) := by ring
        omega
    · -- c is at most ei
      right
      rw [hcmpc ej hejm]
      refine compare_ne_lt_of_le ?_
      rw [hcmpc ei heim] at hcmp
      have hcle : bytesVal c ≤ bytesVal ei.ip := le_of_compare_ne_lt hcmp
      have hvge : bytesVal ei.ip ≤ bytesVal ej.ip := le_of_compare_ne_gt hle
      omega
  -- run the binary search
  obtain ⟨hbelow, hlen, hhit⟩ :=
    goSortSearch_spec (searchF (groupOf blob k) c) (groupOf blob k).length hmono
  set nd := goSortSearch (groupOf blob k).length (searchF (groupOf blob k) c) with hnd
  obtain ⟨tf, htf⟩ := List.mem_iff_get.mp hetmem
  have hft : searchF (groupOf blob k) c tf.val = true := by
    unfold searchF
    rw [List.get?_eq_get tf.isLt, htf]
    simp [hetcon]
  have hnlet : nd ≤ tf.val := by
    by_contra hcon
    push_neg at hcon
    rw [hbelow tf.val hcon] at hft
    cases hft
  have hnlt : nd < (groupOf blob k).length := lt_of_le_of_lt hnlet tf.isLt
  have hfnode := hhit hnlt
  have hgn : (groupOf blob k).get? nd = some ((groupOf blob k).get ⟨nd, hnlt⟩) :=
    List.get?_eq_get hnlt
  set en := (groupOf blob k).get ⟨nd, hnlt⟩ with hen
  have henm : en ∈ groupOf blob k := List.get_mem _ _ _
  have hencon : rvContains en c = true := by
    unfold searchF at hfnode
    rw [hgn] at hfnode
    simp only [Bool.or_eq_true, decide_eq_true_iff] at hfnode
    rcases hfnode with hcon | hcmp
    · exact hcon
    · -- c ≤ en, but en ≤ et = w ≤ c, so en = w
      have hle : rvLE en et := by
        have h := hget nd tf.val hnlt tf.isLt hnlet
        rw [Fin.eta, htf] at h
        exact h
      unfold rvLE at hle
      rw [hcmpe en henm et hetmem] at hle
      have h1 : bytesVal en.ip ≤ bytesVal et.ip := le_of_compare_ne_gt hle
      rw [hcmpc en henm] at hcmp
      have h2 : bytesVal c ≤ bytesVal en.ip := le_of_compare_ne_lt hcmp
      have h3 : bytesVal et.ip ≤ bytesVal c := by
        rw [hw]
        exact hcwle
      have h4 : bytesVal en.ip =
          bytesVal (List.zipWith (· &&& ·) c (cidrMaskBytes k.toNat L)) := by
        rw [← hw]
        omega
      have h5 : en.ip = List.zipWith (· &&& ·) c (cidrMaskBytes k.toNat L) := by
        refine bytesVal_inj ?_ (hshape en henm).2.2.1 hwb h4
        obtain ⟨hLn, -, -, -, -, -, -⟩ := hshape en henm
        omega
      exact (hchar en henm).mpr ⟨hcl, h5⟩
  refine ⟨en, hgn, hencon, ?_⟩
  intro e' he' hcon'
  rw [((hchar e' he').mp hcon').2, ((hchar en henm).mp hencon).2]

theorem searchGroups_cons (c : GoIP) (g : List RVNet) (rest : GoIndex) :
    searchGroups c (g :: rest) =
      match g.get? (goSortSearch g.length (searchF g c)) with
      | some e => if rvContains e c then some e else searchGroups c rest
      | none => searchGroups c rest := rfl

theorem searchGroups_skip {c : GoIP} {g : List RVNet} {rest : GoIndex}
    (h : ∀ e ∈ g, rvContains e c = false) :
    searchGroups c (g :: rest) = searchGroups c rest := by
  rw [searchGroups_cons]
  rcases hg : g.get? (goSortSearch g.length (searchF g c)) with _ | e
  · rfl
  · simp only []
    rw [h e (get?_mem hg)]
    simp

theorem searchGroups_keys {blob : String} {L : Nat} {c : GoIP}
    (hc : canonShape c)
    (hpure : ∀ k ∈ rvKeys blob, ∀ e ∈ groupOf blob k,
      e.ip.length = L ∧ (L = 16 → to4 e.ip = [])) :
    ∀ ks : List Int, (∀ k ∈ ks, k ∈ rvKeys blob) → List.Pairwise (· > ·) ks →
    (searchGroups c (ks.map (groupOf blob)) = none ↔
        ∀ k ∈ ks, ∀ e ∈ groupOf blob k, rvContains e c = false) ∧
      (∀ e₀, searchGroups c (ks.map (groupOf blob)) = some e₀ →
        ∃ k ∈ ks, e₀ ∈ groupOf blob k ∧ rvContains e₀ c = true ∧
          ∀ k' ∈ ks, ∀ e ∈ groupOf blob k', rvContains e c = true →
            k' < k ∨ (k' = k ∧ e.ip = e₀.ip)) := by
  intro ks
  induction ks with
  | nil =>
    intro _ _
    constructor
    · simp [searchGroups]
    · intro e₀ h
      simp [searchGroups] at h
  | cons k ks' ih =>
    intro hmem hpw
    have hkmem : k ∈ rvKeys blob := hmem k (List.mem_cons_self k ks')
    have hmem' : ∀ k' ∈ ks', k' ∈ rvKeys blob :=
      fun k' hk' => hmem k' (List.mem_cons_of_mem k hk')
    have hpw' : List.Pairwise (· > ·) ks' := (List.pairwise_cons.mp hpw).2
    have hhead : ∀ k' ∈ ks', k > k' := (List.pairwise_cons.mp hpw).1
    obtain ⟨ihn, ihs⟩ := ih hmem' hpw'
    by_cases hex : ∃ e ∈ groupOf blob k, rvContains e c = true
    · obtain ⟨en, hgn, hencon, huniq⟩ := searchGroup_found hc (hpure k hkmem) hex
      have hres : searchGroups c ((k :: ks').map (groupOf blob)) = some en := by
        rw [List.map_cons, searchGroups_cons, hgn]
        simp [hencon]
      constructor
      · rw [hres]
        constructor
        · intro hcon
          cases hcon
        · intro hall
          obtain ⟨e, hem, hcon⟩ := hex
          rw [hall k (List.mem_cons_self k ks') e hem] at hcon
          cases hcon
      · intro e₀ h0
        rw [hres] at h0
        injection h0 with h0
        subst h0
        refine ⟨k, List.mem_cons_self k ks', get?_mem hgn, hencon, ?_⟩
        intro k' hk' e he hcon
        rcases List.mem_cons.mp hk' with rfl | htl
        · exact Or.inr ⟨rfl, huniq e he hcon⟩
        · exact Or.inl (hhead k' htl)
    · push_neg at hex
      have hnone : ∀ e ∈ groupOf blob k, rvContains e c = false := by
        intro e he
        have := hex e he
        cases hc2 : rvContains e c
        · rfl
        · exact absurd hc2 this
      have hskip : searchGroups c ((k :: ks').map (groupOf blob)) =
          searchGroups c (ks'.map (groupOf blob)) := by
        rw [List.map_cons]
        exact searchGroups_skip hnone
      constructor
      · rw [hskip, ihn]
        constructor
        · intro hall k' hk'
          rcases List.mem_cons.mp hk' with rfl | htl
          · exact hnone
          · exact hall k' htl
        · intro hall k' hk'
          exact hall k' (List.mem_cons_of_mem k hk')
      · intro e₀ h0
        rw [hskip] at h0
        obtain ⟨k1, hk1, hmem1, hcon1, hrest⟩ := ihs e₀ h0
        refine ⟨k1, List.mem_cons_of_mem k hk1, hmem1, hcon1, ?_⟩
        intro k' hk' e he hcon
        rcases List.mem_cons.mp hk' with rfl | htl
        · rw [hnone e he] at hcon
          cases hcon
        · exact hrest k' htl e he hcon

theorem Search_eq_searchGroups (ix : GoIndex) (s : String) :
    Search ix s = searchGroups (canonIP s) ix := rfl

/-- C1 (amended): for a single-address-family index built by
ParseRouteView (as the v4 and v6 RouteView files are), Search returns a
containing entry of the longest prefix length among all containing
entries, with the smallest network byte-string among containing entries
of that prefix length (they all share one network byte-string), and
returns the not-found error exactly when no entry contains the
canonicalized IP. -/
theorem c1_search_longest_match (blob s : String) (L : Nat)
    (hpure : pureFamily L (ParseRouteView blob)) :
    (Search (ParseRouteView blob) s = none ↔
      ¬someEntryContains (ParseRouteView blob) (canonIP s)) ∧
    (∀ e₀, Search (ParseRouteView blob) s = some e₀ →
      rvContains e₀ (canonIP s) = true ∧
      (∃ g ∈ ParseRouteView blob, e₀ ∈ g) ∧
      ∀ g ∈ ParseRouteView blob, ∀ e ∈ g, rvContains e (canonIP s) = true →
        ∃ a b : Nat, simpleMaskLength e.mask = some a ∧
          simpleMaskLength e₀.mask = some b ∧
          (a < b ∨ (a = b ∧ e.ip = e₀.ip ∧ bytesCmp e₀.ip e.ip ≠ .gt))) := by
  have hcs : canonShape (canonIP s) := canonIP_shape s
  have hkeyed : ∀ k ∈ rvKeys blob, ∀ e ∈ groupOf blob k,
      e.ip.length = L ∧ (L = 16 → to4 e.ip = []) := by
    intro k hk e he
    refine hpure (groupOf blob k) ?_ e he
    rw [ParseRouteView_eq]
    exact List.mem_map_of_mem (groupOf blob) hk
  obtain ⟨hn, hs⟩ := searchGroups_keys hcs hkeyed (rvKeys blob)
    (fun _ h => h) (rvKeys_strict_desc blob)
  rw [Search_eq_searchGroups, ParseRouteView_eq]
  constructor
  · rw [hn]
    constructor
    · intro hall hcon
      obtain ⟨g, hg, e, he, hc⟩ := hcon
      rw [List.mem_map] at hg
      obtain ⟨k, hk, rfl⟩ := hg
      rw [hall k hk e he] at hc
      cases hc
    · intro hnc k hk e he
      cases hc2 : rvContains e (canonIP s)
      · rfl
      · exfalso
        apply hnc
        exact ⟨groupOf blob k, List.mem_map_of_mem (groupOf blob) hk, e, he, hc2⟩
  · intro e₀ h0
    obtain ⟨k, hk, hmem0, hcon0, hrest⟩ := hs e₀ h0
    obtain ⟨L0, hL0or, hipl0, hipb0, hk00, hkle0, hm0, hcanon0⟩ := groupOf_entry_shape hmem0
    refine ⟨hcon0,
      ⟨groupOf blob k, List.mem_map_of_mem (groupOf blob) hk, hmem0⟩, ?_⟩
    intro g hg e he hce
    rw [List.mem_map] at hg
    obtain ⟨k', hk', rfl⟩ := hg
    obtain ⟨L', hL'or, hipl', hipb', hk0', hkle', hm', hcanon'⟩ := groupOf_entry_shape he
    refine ⟨k'.toNat, k.toNat, ?_, ?_, ?_⟩
    · rw [hm']
      exact simpleMaskLength_cidr hkle'
    · rw [hm0]
      exact simpleMaskLength_cidr hkle0
    · rcases hrest k' hk' e he hce with hlt | ⟨rfl, hip⟩
      · left
        omega
      · right
        refine ⟨rfl, hip, ?_⟩
        rw [hip, bytesCmp_self]
        simp

instance (L : Nat) (ix : GoIndex) : Decidable (pureFamily L ix) := by
  unfold pureFamily; infer_instance

instance (ix : GoIndex) (c : GoIP) : Decidable (someEntryContains ix c) := by
  unfold someEntryContains; infer_instance

/-- C1 counterexample: on a blob mixing an IPv4 and an IPv6 route of the
same prefix length, Search misses an entry that contains the query IP
and returns the not-found error: `10.0.0.0/8` contains `10.0.0.5`, but
the 16-byte network `a00::/8` sorts after it in the same prefix-length
group and breaks the monotonicity `sort.Search` relies on.  This refutes
the claim as stated (quantified over every index built by
ParseRouteView). -/
theorem c1_counterexample :
    Search (ParseRouteView "10.0.0.0\t8\t100\na00::\t8\t200") "10.0.0.5" = none ∧
    someEntryContains (ParseRouteView "10.0.0.0\t8\t100\na00::\t8\t200")
      (canonIP "10.0.0.5") := by
  constructor
  · rfl
  · decide

/-- Witness for C1 (amended) at a concrete single-family blob and query. -/
theorem c1_search_longest_match_witness :
    pureFamily 4 (ParseRouteView "1.0.0.0\t24\t13335\n1.0.0.0\t8\t13") ∧
    (Search (ParseRouteView "1.0.0.0\t24\t13335\n1.0.0.0\t8\t13") "1.0.0.1" = none ↔
      ¬someEntryContains (ParseRouteView "1.0.0.0\t24\t13335\n1.0.0.0\t8\t13")
        (canonIP "1.0.0.1")) :=
  ⟨by decide, (c1_search_longest_match "1.0.0.0\t24\t13335\n1.0.0.0\t8\t13" "1.0.0.1" 4
    (by decide)).1⟩

/-! ## C2: reloads that fetch nothing new keep the snapshot -/

/-- C2: if a Reload's provider Get returns the no-change sentinel (or any
error), the corresponding dataset snapshot after Reload is the very same
value as before; when every Get reports no change (or any load step
fails) the entire annotator state, and hence every subsequent
Annotate/AnnotateIP result, is unchanged.  A snapshot is replaced only
when fresh bytes were fetched and decoded successfully. -/
theorem c2_reload_keeps_snapshot (ast : AsnState) (g4 g6 : GetRes String)
    (gn : GetRes ASNames) (gst : GeoState) (gg : GetRes GeoDB) :
    (g4 = .failed ∨ g6 = .failed ∨ gn = .failed → asnReload ast g4 g6 gn = ast) ∧
    (g4 = .noChange → (asnReload ast g4 g6 gn).asn4 = ast.asn4) ∧
    (g6 = .noChange → (asnReload ast g4 g6 gn).asn6 = ast.asn6) ∧
    (gn = .noChange → (asnReload ast g4 g6 gn).asnames = ast.asnames) ∧
    (asnReload ast .noChange .noChange .noChange = ast) ∧
    (∀ src, asnAnnotateIP (asnReload ast .noChange .noChange .noChange) src =
      asnAnnotateIP ast src) ∧
    (∀ ID ann, asnAnnotateID (asnReload ast .noChange .noChange .noChange) ID ann =
      asnAnnotateID ast ID ann) ∧
    ((asnReload ast g4 g6 gn).asn4 ≠ ast.asn4 →
      ∃ tsv, g4 = .fresh (some tsv) ∧ (asnReload ast g4 g6 gn).asn4 = ParseRouteView tsv) ∧
    (gg = .noChange → geoReload gst gg = gst) ∧
    (gg = .failed → geoReload gst gg = gst) ∧
    (∀ ip, geoAnnotateIP (geoReload gst .noChange) ip = geoAnnotateIP gst ip) ∧
    ((geoReload gst gg).maxmind ≠ gst.maxmind → ∃ db, gg = .fresh (some db) ∧
      (geoReload gst gg).maxmind = db) := by
  have hnc : asnReload ast .noChange .noChange .noChange = ast := by
    show (⟨ast.localIPs, ast.asn4, ast.asn6, ast.asnames⟩ : AsnState) = ast
    rfl
  refine ⟨?_, ?_, ?_, ?_, hnc, ?_, ?_, ?_, ?_, ?_, ?_, ?_⟩
  · rintro (rfl | rfl | rfl)
    · rfl
    · unfold asnReload
      cases h4 : asnLoad ast.asn4 g4 <;> rfl
    · unfold asnReload
      cases h4 : asnLoad ast.asn4 g4
      · rfl
      · cases h6 : asnLoad ast.asn6 g6 <;> rfl
  · rintro rfl
    unfold asnReload
    cases h6 : asnLoad ast.asn6 g6
    · rfl
    · cases hn : namesLoad ast.asnames gn <;> rfl
  · rintro rfl
    unfold asnReload
    cases h4 : asnLoad ast.asn4 g4
    · rfl
    · cases hn : namesLoad ast.asnames gn
      · rfl
      · show ast.asn6 = ast.asn6
        rfl
  · rintro rfl
    unfold asnReload
    cases h4 : asnLoad ast.asn4 g4
    · rfl
    · cases h6 : asnLoad ast.asn6 g6 <;> rfl
  · intro src
    rw [hnc]
  · intro ID ann
    rw [hnc]
  · intro hne
    rcases g4 with _ | _ | ⟨_ | tsv⟩ <;>
      rcases g6 with _ | _ | ⟨_ | t6⟩ <;>
        rcases gn with _ | _ | ⟨_ | tn⟩ <;>
          first
            | exact absurd rfl hne
            | exact ⟨tsv, rfl, rfl⟩
  · rintro rfl
    show ({ gst with maxmind := gst.maxmind } : GeoState) = gst
    rfl
  · rintro rfl
    rfl
  · intro ip
    show geoAnnotateIP ({ gst with maxmind := gst.maxmind }) ip = geoAnnotateIP gst ip
    rfl
  · intro hne
    cases hgg : gg with
    | noChange =>
      rw [hgg] at hne
      exact absurd rfl hne
    | failed =>
      rw [hgg] at hne
      exact absurd rfl hne
    | fresh payload =>
      cases payload with
      | none =>
        rw [hgg] at hne
        exact absurd rfl hne
      | some db => exact ⟨db, rfl, rfl⟩

/-- Witness for C2 at a concrete state: a failed v4 Get leaves the state
untouched. -/
theorem c2_reload_keeps_snapshot_witness :
    asnReload { localIPs := [], asn4 := [], asn6 := [], asnames := none }
      .failed .noChange .noChange =
      { localIPs := [], asn4 := [], asn6 := [], asnames := none } :=
  (c2_reload_keeps_snapshot
      { localIPs := [], asn4 := [], asn6 := [], asnames := none }
      .failed .noChange .noChange
      { localIPs := [], maxmind := ⟨fun _ => .error "no db"⟩ } .noChange).1
    (Or.inl rfl)

/-- Unfolding equation for `FindDirection` on a cons cell. -/
theorem findDirection_cons (ID : SockID) (p : GoIP) (rest : List GoIP) :
    FindDirection ID (p :: rest) =
      if ID.SrcIP = ipString p then some GoDirection.SrcIsServer
      else if ID.DstIP = ipString p then some GoDirection.DstIsServer
      else FindDirection ID rest := by
  cases rest <;> rfl

/-- Counterexample for C3: both endpoints of the flow are members of the
local-IP set, yet `FindDirection` returns `DstIsServer`, because the scan
stops at the first list element matching either endpoint and the destination
address is stored first. -/
theorem c3_counterexample :
    (∃ a ∈ ([[5, 6, 7, 8], [1, 2, 3, 4]] : List GoIP), "1.2.3.4" = ipString a) ∧
    (∃ a ∈ ([[5, 6, 7, 8], [1, 2, 3, 4]] : List GoIP), "5.6.7.8" = ipString a) ∧
    FindDirection ⟨"1.2.3.4", 1, "5.6.7.8", 2⟩ [[5, 6, 7, 8], [1, 2, 3, 4]] =
      some GoDirection.DstIsServer := by
  decide

/-- C3 (amended): `FindDirection` is first-match over the stored order of the
local-IP list.  If no element before `l` matches either endpoint, then: the
source matching `l` yields `SrcIsServer`; the source not matching but the
destination matching `l` yields `DstIsServer`.  In particular, within a single
element both endpoints matching favours `SrcIsServer` (the source is checked
first), but across distinct elements the result depends on storage order. -/
theorem c3_find_direction_first_match (ID : SockID) (pre : List GoIP)
    (l : GoIP) (post : List GoIP)
    (hpre : ∀ p ∈ pre, ID.SrcIP ≠ ipString p ∧ ID.DstIP ≠ ipString p) :
    (ID.SrcIP = ipString l →
      FindDirection ID (pre ++ l :: post) = some GoDirection.SrcIsServer) ∧
    (ID.SrcIP ≠ ipString l → ID.DstIP = ipString l →
      FindDirection ID (pre ++ l :: post) = some GoDirection.DstIsServer) := by
  induction pre with
  | nil =>
    refine ⟨fun hs => ?_, fun hns hd => ?_⟩
    · show FindDirection ID (l :: post) = some GoDirection.SrcIsServer
      rw [findDirection_cons, if_pos hs]
    · show FindDirection ID (l :: post) = some GoDirection.DstIsServer
      rw [findDirection_cons, if_neg hns, if_pos hd]
  | cons p rest ih =>
    have hp := hpre p (List.mem_cons_self p rest)
    have hrest : ∀ q ∈ rest, ID.SrcIP ≠ ipString q ∧ ID.DstIP ≠ ipString q :=
      fun q hq => hpre q (List.mem_cons_of_mem p hq)
    have step : FindDirection ID ((p :: rest) ++ l :: post) =
        FindDirection ID (rest ++ l :: post) := by
      show FindDirection ID (p :: (rest ++ l :: post)) = _
      rw [findDirection_cons, if_neg hp.1, if_neg hp.2]
    exact ⟨fun hs => step.trans ((ih hrest).1 hs),
      fun hns hd => step.trans ((ih hrest).2 hns hd)⟩

/-- Witness for C3 at concrete inputs: with a non-matching element first, the
source match yields `SrcIsServer`. -/
theorem c3_find_direction_first_match_witness :
    FindDirection ⟨"1.2.3.4", 1, "9.9.9.9", 2⟩
      ([[5, 5, 5, 5]] ++ [1, 2, 3, 4] :: []) = some GoDirection.SrcIsServer :=
  (c3_find_direction_first_match ⟨"1.2.3.4", 1, "9.9.9.9", 2⟩
      [[5, 5, 5, 5]] [1, 2, 3, 4] [] (by decide)).1 (by decide)

/-- C4: a double miss in the ASN indexes yields a Network record equal to the
zero record with only Missing set (never null, never an error), and a
successfully read but empty geo record yields a Geolocation equal to the zero
record with only Missing set (an `.ok`, not an error). -/
theorem c4_lookup_miss_missing (asn4 asn6 : GoIndex) (names : Option ASNames)
    (src : String) (h4 : Search asn4 src = none) (h6 : Search asn6 src = none)
    (db : GeoDB) (ip : GoIP) (r : CityRecord) (hip : ¬ip.isEmpty)
    (hdb : db.city ip = .ok r) (hempty : cityIsEmpty r = true) :
    annotateIPHoldingLock asn4 asn6 names src = { Missing := true } ∧
    geoAnnotateIPHoldingLock db ip = .ok { Missing := true } := by
  constructor
  · unfold annotateIPHoldingLock
    rw [h4, h6]
  · unfold geoAnnotateIPHoldingLock
    rw [if_neg hip, hdb]
    exact if_pos hempty

/-- Witness for C4 at concrete inputs: empty indexes, a parseable IP, and a
reader returning the all-zero city record. -/
theorem c4_lookup_miss_missing_witness :
    annotateIPHoldingLock [] [] none "1.2.3.4" = { Missing := true } ∧
    geoAnnotateIPHoldingLock ⟨fun _ => .ok {}⟩ [1, 2, 3, 4] =
      .ok { Missing := true } :=
  c4_lookup_miss_missing [] [] none "1.2.3.4" rfl rfl
    ⟨fun _ => .ok {}⟩ [1, 2, 3, 4] {} (by decide) rfl rfl

/-- Counterexample for C5: `job.WriteFile` renders the directory date with
`timestamp.Format` in the timestamp's own location (the code never calls
`.UTC()`): an instant at 2009-03-17 20:42:03 UTC carried in a UTC+5 location
is filed under `/2009/03/18/`, not under its UTC date `/2009/03/17/`. -/
theorem c5_counterexample :
    writeFilePath "d" ⟨⟨1237320123, 18000⟩, "u", ⟨"", 0, "", 0⟩⟩ =
      "d" ++ "/2009/03/18/" ++ "u" ++ ".json" ∧
    formatDatePathUTC ⟨1237320123, 18000⟩ = "/2009/03/17/" := by
  exact ⟨rfl, rfl⟩

/-- C5 (amended): the worker writes to
`dir + timestamp.Format("/2006/01/02/") + uuid + ".json"` where the date is
the timestamp's wall-clock date in its own location (equal to the UTC date
whenever the location offset is zero), and the record built by
`ProcessIncomingRequests` carries the event's UUID and timestamp, unchanged
by any annotator that leaves those two fields alone (as all annotators in
this program do). -/
theorem c5_write_uses_event_time (dir : String) (annotators : List AnnFn)
    (j : HJob)
    (hpres : ∀ a ∈ annotators, ∀ id ann,
      ((a id ann).1).UUID = ann.UUID ∧ ((a id ann).1).Timestamp = ann.Timestamp) :
    (processJob annotators j).UUID = j.uuid ∧
    (processJob annotators j).Timestamp = j.timestamp ∧
    writeFilePath dir j = dir ++ formatDatePath j.timestamp ++ j.uuid ++ ".json" ∧
    (j.timestamp.offset = 0 →
      formatDatePath j.timestamp = formatDatePathUTC j.timestamp) := by
  have key : ∀ (l : List AnnFn),
      (∀ a ∈ l, ∀ id ann,
        ((a id ann).1).UUID = ann.UUID ∧ ((a id ann).1).Timestamp = ann.Timestamp) →
      ∀ init : GoAnnotations,
        (l.foldl (fun ann a => (a j.id ann).1) init).UUID = init.UUID ∧
        (l.foldl (fun ann a => (a j.id ann).1) init).Timestamp = init.Timestamp := by
    intro l
    induction l with
    | nil => exact fun _ init => ⟨rfl, rfl⟩
    | cons a rest ih =>
      intro hl init
      have ha := hl a (List.mem_cons_self a rest) j.id init
      have hrest := ih (fun b hb => hl b (List.mem_cons_of_mem a hb))
      have h1 := hrest ((a j.id init).1)
      exact ⟨h1.1.trans ha.1, h1.2.trans ha.2⟩
  have hk := key annotators hpres { UUID := j.uuid, Timestamp := j.timestamp }
  refine ⟨hk.1, hk.2, rfl, fun hoff => ?_⟩
  show formatDatePath j.timestamp = formatDatePath ⟨j.timestamp.unix, 0⟩
  rw [← hoff]

/-- Witness for C5 at concrete inputs: an identity annotator and a job at the
Unix epoch in UTC. -/
theorem c5_write_uses_event_time_witness :
    (processJob [fun _ ann => (ann, none)]
        ⟨⟨0, 0⟩, "u", ⟨"", 0, "", 0⟩⟩).UUID = "u" ∧
    (processJob [fun _ ann => (ann, none)]
        ⟨⟨0, 0⟩, "u", ⟨"", 0, "", 0⟩⟩).Timestamp = ⟨0, 0⟩ ∧
    writeFilePath "d" ⟨⟨0, 0⟩, "u", ⟨"", 0, "", 0⟩⟩ =
      "d" ++ formatDatePath ⟨0, 0⟩ ++ "u" ++ ".json" ∧
    ((⟨0, 0⟩ : GoTime).offset = 0 →
      formatDatePath ⟨0, 0⟩ = formatDatePathUTC ⟨0, 0⟩) :=
  c5_write_uses_event_time "d" [fun _ ann => (ann, none)]
    ⟨⟨0, 0⟩, "u", ⟨"", 0, "", 0⟩⟩
    (fun a ha id ann => by
      rw [List.mem_singleton] at ha
      subst ha
      exact ⟨rfl, rfl⟩)

/-- C6: `handler.Open` never blocks: with free space in the bounded channel
the job is enqueued and the missed-jobs{pipefull} counter is untouched; with
the channel full the job is dropped and the counter is incremented exactly
once.  In particular, from an empty channel of capacity 1, the first of two
consecutive `Open` calls leaves the counter unchanged and exactly the second
increments it. -/
theorem c6_open_never_blocks (st1 st2 : HState) (t : GoTime) (u : String)
    (ID : SockID) (hspace : st1.jobs.length < st1.cap)
    (hfull : ¬st2.jobs.length < st2.cap) :
    hOpen st1 t u ID = { st1 with jobs := st1.jobs ++ [⟨t, u, ID⟩] } ∧
    hOpen st2 t u ID = { st2 with missedPipefull := st2.missedPipefull + 1 } ∧
    (st1.cap = 1 → st1.jobs = [] →
      (hOpen st1 t u ID).missedPipefull = st1.missedPipefull ∧
      (hOpen (hOpen st1 t u ID) t u ID).missedPipefull =
        st1.missedPipefull + 1) := by
  have e1 : hOpen st1 t u ID = { st1 with jobs := st1.jobs ++ [⟨t, u, ID⟩] } := by
    unfold hOpen
    rw [if_pos hspace]
  refine ⟨e1, ?_, ?_⟩
  · unfold hOpen
    rw [if_neg hfull]
  · intro hcap hnil
    have hfull2 : ¬(({ st1 with jobs := st1.jobs ++ [⟨t, u, ID⟩] } : HState).jobs.length <
        ({ st1 with jobs := st1.jobs ++ [⟨t, u, ID⟩] } : HState).cap) := by
      show ¬((st1.jobs ++ ([⟨t, u, ID⟩] : List HJob)).length < st1.cap)
      rw [hnil, hcap]
      simp
    constructor
    · rw [e1]
    · rw [e1]
      unfold hOpen
      rw [if_neg hfull2]

/-- Witness for C6 at concrete states: capacity 1, starting empty (first
state) and starting full (second state). -/
theorem c6_open_never_blocks_witness :
    hOpen ⟨1, [], 5⟩ ⟨0, 0⟩ "u" ⟨"", 0, "", 0⟩ =
      ⟨1, [⟨⟨0, 0⟩, "u", ⟨"", 0, "", 0⟩⟩], 5⟩ ∧
    hOpen ⟨1, [⟨⟨0, 0⟩, "u", ⟨"", 0, "", 0⟩⟩], 5⟩ ⟨0, 0⟩ "u" ⟨"", 0, "", 0⟩ =
      ⟨1, [⟨⟨0, 0⟩, "u", ⟨"", 0, "", 0⟩⟩], 6⟩ ∧
    (hOpen ⟨1, [], 5⟩ ⟨0, 0⟩ "u" ⟨"", 0, "", 0⟩).missedPipefull = 5 ∧
    (hOpen (hOpen ⟨1, [], 5⟩ ⟨0, 0⟩ "u" ⟨"", 0, "", 0⟩) ⟨0, 0⟩ "u"
      ⟨"", 0, "", 0⟩).missedPipefull = 5 + 1 := by
  have h := c6_open_never_blocks ⟨1, [], 5⟩
    ⟨1, [⟨⟨0, 0⟩, "u", ⟨"", 0, "", 0⟩⟩], 5⟩ ⟨0, 0⟩ "u" ⟨"", 0, "", 0⟩
    (by decide) (by decide)
  exact ⟨h.1, h.2.1, (h.2.2 rfl rfl).1, (h.2.2 rfl rfl).2⟩

/-! ## The RPC handler's response map -/

theorem upsert_ne_nil (m : List (String × ClientAnnotations)) (k : String)
    (v : ClientAnnotations) : upsert m k v ≠ [] := by
  unfold upsert
  split
  case isTrue h =>
    intro hnil
    rw [List.map_eq_nil_iff] at hnil
    subst hnil
    simp at h
  case isFalse h =>
    simp

theorem mem_upsert {m : List (String × ClientAnnotations)} {k : String}
    {v : ClientAnnotations} {p : String × ClientAnnotations}
    (hp : p ∈ upsert m k v) : p ∈ m ∨ p = (k, v) := by
  unfold upsert at hp
  split at hp
  · obtain ⟨q, hq, hmap⟩ := List.mem_map.mp hp
    by_cases hqk : q.1 = k
    · rw [if_pos hqk] at hmap
      right
      exact hmap.symm
    · rw [if_neg hqk] at hmap
      left
      exact hmap ▸ hq
  · rcases List.mem_append.mp hp with h | h
    · exact Or.inl h
    · right
      simpa using h

theorem exists_key_upsert (m : List (String × ClientAnnotations)) (k s : String)
    (v0 : ClientAnnotations) :
    (∃ v, (s, v) ∈ upsert m k v0) ↔ (∃ v, (s, v) ∈ m) ∨ s = k := by
  constructor
  · rintro ⟨v, hv⟩
    rcases mem_upsert hv with h | h
    · exact Or.inl ⟨v, h⟩
    · exact Or.inr (congrArg Prod.fst h)
  · intro h
    unfold upsert
    split
    case isTrue hany =>
      rcases h with ⟨v, hv⟩ | rfl
      · by_cases hsk : s = k
        · refine ⟨v0, List.mem_map.mpr ⟨(s, v), hv, ?_⟩⟩
          simp [hsk]
        · refine ⟨v, List.mem_map.mpr ⟨(s, v), hv, ?_⟩⟩
          simp [hsk]
      · rw [List.any_eq_true] at hany
        obtain ⟨q, hq, hqk⟩ := hany
        have hq1 := of_decide_eq_true hqk
        refine ⟨v0, List.mem_map.mpr ⟨q, hq, ?_⟩⟩
        simp [hq1]
    case isFalse hany =>
      rcases h with ⟨v, hv⟩ | rfl
      · exact ⟨v, List.mem_append.mpr (Or.inl hv)⟩
      · exact ⟨v0, List.mem_append.mpr (Or.inr (by simp))⟩

theorem serveFold_nil_iff (a : AsnState) (g : GeoState) (l : List String)
    (acc : List (String × ClientAnnotations)) :
    l.foldl (serveStep a g) acc = [] ↔
      acc = [] ∧ ∀ s ∈ l, (goParseIP s.data).isEmpty = true := by
  induction l generalizing acc with
  | nil => simp
  | cons s rest ih =>
    rw [List.foldl_cons, ih]
    unfold serveStep
    by_cases hs : (goParseIP s.data).isEmpty = true
    · rw [if_pos hs]
      constructor
      · rintro ⟨h1, h2⟩
        refine ⟨h1, ?_⟩
        intro t ht
        rcases List.mem_cons.mp ht with rfl | ht'
        · exact hs
        · exact h2 t ht'
      · rintro ⟨h1, h2⟩
        exact ⟨h1, fun t ht => h2 t (List.mem_cons_of_mem s ht)⟩
    · rw [if_neg hs]
      constructor
      · rintro ⟨h1, _⟩
        exact absurd h1 (upsert_ne_nil _ _ _)
      · rintro ⟨_, h2⟩
        exact absurd (h2 s (List.mem_cons_self s rest)) hs

theorem serveFold_keys (a : AsnState) (g : GeoState) (l : List String)
    (acc : List (String × ClientAnnotations)) (s : String) :
    (∃ v, (s, v) ∈ l.foldl (serveStep a g) acc) ↔
      (∃ v, (s, v) ∈ acc) ∨ (s ∈ l ∧ (goParseIP s.data).isEmpty = false) := by
  induction l generalizing acc with
  | nil => simp
  | cons t rest ih =>
    rw [List.foldl_cons, ih]
    unfold serveStep
    by_cases ht : (goParseIP t.data).isEmpty = true
    · rw [if_pos ht]
      constructor
      · rintro (h | h)
        · exact Or.inl h
        · exact Or.inr ⟨List.mem_cons_of_mem t h.1, h.2⟩
      · rintro (h | ⟨hmem, hval⟩)
        · exact Or.inl h
        · rcases List.mem_cons.mp hmem with rfl | h'
          · simp [ht] at hval
          · exact Or.inr ⟨h', hval⟩
    · rw [if_neg ht]
      rw [exists_key_upsert]
      have htf : (goParseIP t.data).isEmpty = false := by
        cases hx : (goParseIP t.data).isEmpty
        · rfl
        · exact absurd hx ht
      constructor
      · rintro ((h | rfl) | ⟨h', hv⟩)
        · exact Or.inl h
        · exact Or.inr ⟨List.mem_cons_self s rest, htf⟩
        · exact Or.inr ⟨List.mem_cons_of_mem t h', hv⟩
      · rintro (h | ⟨hmem, hval⟩)
        · exact Or.inl (Or.inl h)
        · rcases List.mem_cons.mp hmem with rfl | h'
          · exact Or.inl (Or.inr rfl)
          · exact Or.inr ⟨h', hval⟩

theorem serveFold_values (a : AsnState) (g : GeoState) (l : List String)
    (acc : List (String × ClientAnnotations))
    (hacc : ∀ p ∈ acc, p.2 = serveValue a g p.1) :
    ∀ p ∈ l.foldl (serveStep a g) acc, p.2 = serveValue a g p.1 := by
  induction l generalizing acc with
  | nil => exact hacc
  | cons t rest ih =>
    rw [List.foldl_cons]
    refine ih _ ?_
    intro q hq
    unfold serveStep at hq
    split at hq
    · exact hacc q hq
    · rcases mem_upsert hq with h | h
      · exact hacc q h
      · rw [h]

theorem serveAnnotateIPs_eq (a : AsnState) (g : GeoState) (l : List String) :
    serveAnnotateIPs a g l =
      if (l.foldl (serveStep a g) []).isEmpty then ⟨400, []⟩
      else ⟨200, l.foldl (serveStep a g) []⟩ := rfl

/-- C7: on `GET /v1/annotate/ips` each unparseable IP string is skipped, the
status is 400 exactly when no request IP parses (and then the body is empty),
otherwise 200; the body's keys are exactly the parseable input IPs and every
entry carries the `ClientAnnotations` computed from the in-memory snapshots
(Geo nil on a geo error, Network always present, Missing=true included). -/
theorem c7_serve_http (asnSt : AsnState) (geoSt : GeoState)
    (ipstrings : List String) :
    ((serveAnnotateIPs asnSt geoSt ipstrings).status = 400 ∨
      (serveAnnotateIPs asnSt geoSt ipstrings).status = 200) ∧
    ((serveAnnotateIPs asnSt geoSt ipstrings).status = 400 ↔
      ∀ s ∈ ipstrings, (goParseIP s.data).isEmpty = true) ∧
    ((serveAnnotateIPs asnSt geoSt ipstrings).status = 400 →
      (serveAnnotateIPs asnSt geoSt ipstrings).body = []) ∧
    (∀ s : String,
      (∃ v, (s, v) ∈ (serveAnnotateIPs asnSt geoSt ipstrings).body) ↔
        s ∈ ipstrings ∧ (goParseIP s.data).isEmpty = false) ∧
    (∀ p ∈ (serveAnnotateIPs asnSt geoSt ipstrings).body,
      p.2 = serveValue asnSt geoSt p.1) := by
  rw [serveAnnotateIPs_eq]
  by_cases hR : (ipstrings.foldl (serveStep asnSt geoSt) []).isEmpty = true
  · rw [if_pos hR]
    have hnil : ipstrings.foldl (serveStep asnSt geoSt) [] = [] :=
      List.isEmpty_iff.mp hR
    have hall := ((serveFold_nil_iff asnSt geoSt ipstrings []).mp hnil).2
    refine ⟨Or.inl rfl, ?_, fun _ => rfl, ?_, ?_⟩
    · exact ⟨fun _ => hall, fun _ => rfl⟩
    · intro s
      constructor
      · rintro ⟨v, hv⟩
        exact absurd hv (List.not_mem_nil _)
      · rintro ⟨hmem, hval⟩
        rw [hall s hmem] at hval
        cases hval
    · intro p hp
      exact absurd hp (List.not_mem_nil _)
  · rw [if_neg hR]
    have hne : ipstrings.foldl (serveStep asnSt geoSt) [] ≠ [] :=
      fun h => hR (List.isEmpty_iff.mpr h)
    refine ⟨Or.inr rfl, ?_, ?_, ?_, ?_⟩
    · constructor
      · intro h
        cases h
      · intro hall
        exact absurd ((serveFold_nil_iff asnSt geoSt ipstrings []).mpr
          ⟨rfl, hall⟩) hne
    · intro h
      cases h
    · intro s
      rw [serveFold_keys]
      simp
    · exact serveFold_values asnSt geoSt ipstrings [] (by intro p hp; cases hp)

/-- Witness for C7 at concrete inputs: one bad and one good IP gives 200 with
exactly the good key; only bad IPs gives 400. -/
theorem c7_serve_http_witness :
    (serveAnnotateIPs {} {} ["bogus"]).status = 400 ∧
    (serveAnnotateIPs {} {} ["bogus", "1.2.3.4"]).status = 200 ∧
    (∃ v, ("1.2.3.4", v) ∈ (serveAnnotateIPs {} {} ["bogus", "1.2.3.4"]).body) := by
  refine ⟨?_, ?_, ?_⟩
  · exact (c7_serve_http {} {} ["bogus"]).2.1.mpr (by decide)
  · rcases (c7_serve_http {} {} ["bogus", "1.2.3.4"]).1 with h | h
    · have := (c7_serve_http {} {} ["bogus", "1.2.3.4"]).2.1.mp h
      exact absurd (this "1.2.3.4" (by decide)) (by decide)
    · exact h
  · exact ((c7_serve_http {} {} ["bogus", "1.2.3.4"]).2.2.2.1 "1.2.3.4").mpr
      ⟨by decide, by decide⟩

/-! ## Splitting systems strings -/

theorem goSplit_ne_nil (sep : Char) (l : List Char) : goSplit sep l ≠ [] := by
  cases l with
  | nil => simp [goSplit]
  | cons c rest =>
    unfold goSplit
    split
    · simp
    · split <;> simp

theorem goSplit_length_two (sep : Char) (l : List Char) (h : sep ∈ l) :
    2 ≤ (goSplit sep l).length := by
  induction l with
  | nil => cases h
  | cons c rest ih =>
    unfold goSplit
    by_cases hc : c = sep
    · rw [if_pos hc]
      have h1 := goSplit_ne_nil sep rest
      have : 1 ≤ (goSplit sep rest).length := by
        cases hg : goSplit sep rest
        · exact absurd hg h1
        · simp
      simpa using this
    · rw [if_neg hc]
      have hmem : sep ∈ rest := by
        rcases List.mem_cons.mp h with rfl | h'
        · exact absurd rfl hc
        · exact h'
      have h2 := ih hmem
      cases hg : goSplit sep rest with
      | nil => exact absurd hg (goSplit_ne_nil sep rest)
      | cons g gs =>
        rw [hg] at h2
        simpa using h2

theorem goSplit_not_mem (sep : Char) (l : List Char) (h : sep ∉ l) :
    goSplit sep l = [l] := by
  induction l with
  | nil => rfl
  | cons c rest ih =>
    have hc : c ≠ sep := fun hcs => h (hcs ▸ List.mem_cons_self c rest)
    have hrest : sep ∉ rest := fun hm => h (List.mem_cons_of_mem c hm)
    unfold goSplit
    rw [if_neg hc, ih hrest]

theorem filterMap_length_of_isSome {α β : Type} (f : α → Option β) (l : List α)
    (h : ∀ t ∈ l, (f t).isSome = true) : (l.filterMap f).length = l.length := by
  induction l with
  | nil => rfl
  | cons t rest ih =>
    obtain ⟨v, hv⟩ := Option.isSome_iff_exists.mp (h t (List.mem_cons_self t rest))
    rw [List.filterMap_cons, hv]
    have := ih (fun u hu => h u (List.mem_cons_of_mem t hu))
    simpa using this

/-- C8: `ParseSystems` splits on `_` into one System per group and on `,`
into that System's ASNs, skipping unparseable tokens: a Multi-Origin AS
string (one containing `_`) yields at least two Systems; an AS-set string
(no `_`, at least two tokens, all parseable) yields exactly one System with
at least two ASNs; and on an index hit the resulting Network's Systems are
`ParseSystems` of the entry's systems string with ASNumber the first ASN of
the first System. -/
theorem c8_parse_systems (s1 s2 : String) (hm : '_' ∈ s1.data)
    (hnm : '_' ∉ s2.data)
    (hall : ∀ t ∈ goSplit ',' s2.data, (goParseUint32 t).isSome = true)
    (h2 : 2 ≤ (goSplit ',' s2.data).length) (asn4 asn6 : GoIndex)
    (names : Option ASNames) (src : String) (e : RVNet)
    (h4 : Search asn4 src = some e) :
    2 ≤ (ParseSystems s1).length ∧
    ParseSystems s2 = [⟨(goSplit ',' s2.data).filterMap goParseUint32⟩] ∧
    2 ≤ ((goSplit ',' s2.data).filterMap goParseUint32).length ∧
    (annotateIPHoldingLock asn4 asn6 names src).Systems = ParseSystems e.systems ∧
    (annotateIPHoldingLock asn4 asn6 names src).ASNumber =
      FirstASN { Systems := ParseSystems e.systems } ∧
    (∀ (a : Nat) (rest : List Nat) (sysrest : List GoSystem),
      ParseSystems e.systems = ⟨a :: rest⟩ :: sysrest →
      (annotateIPHoldingLock asn4 asn6 names src).ASNumber = a) := by
  have hsys : (annotateIPHoldingLock asn4 asn6 names src).Systems =
      ParseSystems e.systems := by
    unfold annotateIPHoldingLock
    rw [h4]
  have hasn : (annotateIPHoldingLock asn4 asn6 names src).ASNumber =
      FirstASN { Systems := ParseSystems e.systems } := by
    unfold annotateIPHoldingLock
    rw [h4]
  refine ⟨?_, ?_, ?_, hsys, hasn, ?_⟩
  · show 2 ≤ ((goSplit '_' s1.data).map _).length
    rw [List.length_map]
    exact goSplit_length_two '_' s1.data hm
  · show ((goSplit '_' s2.data).map _) = _
    rw [goSplit_not_mem '_' s2.data hnm]
    rfl
  · rw [filterMap_length_of_isSome goParseUint32 (goSplit ',' s2.data) hall]
    exact h2
  · intro a rest sysrest heq
    rw [hasn, heq]
    rfl

/-- Witness for C8 at concrete inputs: the MOAS string `133929_133107`, the
AS-set string `32,54`, and a one-entry index hit at 10.0.0.5. -/
theorem c8_parse_systems_witness :
    2 ≤ (ParseSystems "133929_133107").length ∧
    ParseSystems "32,54" =
      [⟨(goSplit ',' "32,54".data).filterMap goParseUint32⟩] ∧
    2 ≤ ((goSplit ',' "32,54".data).filterMap goParseUint32).length ∧
    (annotateIPHoldingLock [[⟨[10, 0, 0, 0], [255, 0, 0, 0], "32,54"⟩]] []
      none "10.0.0.5").Systems = ParseSystems "32,54" ∧
    (annotateIPHoldingLock [[⟨[10, 0, 0, 0], [255, 0, 0, 0], "32,54"⟩]] []
      none "10.0.0.5").ASNumber =
      FirstASN { Systems := ParseSystems "32,54" } ∧
    (annotateIPHoldingLock [[⟨[10, 0, 0, 0], [255, 0, 0, 0], "32,54"⟩]] []
      none "10.0.0.5").ASNumber = 32 := by
  have h := c8_parse_systems "133929_133107" "32,54" (by decide) (by decide)
    (by decide) (by decide) [[⟨[10, 0, 0, 0], [255, 0, 0, 0], "32,54"⟩]] []
    none "10.0.0.5" ⟨[10, 0, 0, 0], [255, 0, 0, 0], "32,54"⟩ (by decide)
  exact ⟨h.1, h.2.1, h.2.2.1, h.2.2.2.1, h.2.2.2.2.1,
    h.2.2.2.2.2 32 [54] [] (by decide)⟩

/-- Counterexample for C9: a virtual site with both CIDRs empty does not
leave the local-IP set unchanged: `load` appends the two nil network
addresses of the zero `net.IPNet` values. -/
theorem c9_counterexample :
    siteLoad (some [("h", ⟨{}, "", "", "virtual"⟩)]) "h" [[10, 0, 0, 1]] =
      some ({}, [[10, 0, 0, 1], [], []], ([], []), ([], [])) ∧
    ([[10, 0, 0, 1], [], []] : List GoIP) ≠ [[10, 0, 0, 1]] :=
  ⟨rfl, by decide⟩

/-- C9 (amended): for a hostname resolving to a virtual site whose v4 and v6
CIDR strings are both empty, `load` succeeds and returns the local-IP set
extended by two nil IPs (the network addresses of the zero `net.IPNet`), a
set different from the initial one; the parsed v4 and v6 networks are the
zero `net.IPNet`. -/
theorem c9_virtual_empty_appends_nils (host : String) (ann : ServerAnnotations)
    (rest : List (String × SiteEntry)) (ips : List GoIP) :
    siteLoad (some ((host, ⟨ann, "", "", "virtual"⟩) :: rest)) host ips =
      some (ann, ips ++ [[], []], ([], []), ([], [])) ∧
    ips ++ [([] : GoIP), []] ≠ ips := by
  constructor
  · simp only [siteLoad]
    rw [List.find?_cons_of_pos _ (by simp)]
    rfl
  · intro h
    have := congrArg List.length h
    simp at this

/-- Witness for C9 at concrete inputs: starting from a one-element local-IP
set, the empty virtual site leaves a strictly larger set. -/
theorem c9_virtual_empty_appends_nils_witness :
    siteLoad (some [("h", ⟨{}, "", "", "virtual"⟩)]) "h" [[10, 0, 0, 1]] =
      some ({}, [[10, 0, 0, 1]] ++ [[], []], ([], []), ([], [])) ∧
    [[10, 0, 0, 1]] ++ [([] : GoIP), []] ≠ [[10, 0, 0, 1]] :=
  c9_virtual_empty_appends_nils "h" {} [] [[10, 0, 0, 1]]
